import Mathlib

/-!
Verification of the Viterbi lattice and reading-candidate enumerator of
sudachi.rs (src/sudachi/src/analysis/lattice.rs,
src/sudachi/src/analysis/reading_candidates/mod.rs) and of the python
boundary word-id decoding (src/python/src/word_info.rs), as a shallow
embedding in Lean.  Machine integers are modelled as Nat/Int; i32 costs
use the `i32Max` sentinel exactly as the source does, and the source's
own invariant (spec section 4.1) that cost arithmetic never overflows
i32 justifies plain `Int` arithmetic.
-/

namespace Sudachi

/-- The i32::MAX sentinel reserved by the lattice as "unreachable". -/
def i32Max : Int := 2147483647

/-- Modelled from the spec: raw 32-bit word id layout from dic/word_id.rs
(not among the sources): high 4 bits dictionary id, low 28 bits word index,
dic nibble 0xF marks OOV / special nodes. -/
structure WordId where
  raw : Nat
deriving DecidableEq

/-- Dictionary id: high 4 bits of the raw id. -/
def WordId.dic (w : WordId) : Nat := (w.raw >>> 28) &&& 0xf

/-- Word index: low 28 bits of the raw id. -/
def WordId.word (w : WordId) : Nat := w.raw &&& 0x0fffffff

/-- OOV predicate: the dic nibble equals the reserved OOV marker 0xF. -/
def WordId.is_oov (w : WordId) : Bool := w.dic == 0xf

/-- Modelled from the spec: the EOS sentinel word id (a special node with
the reserved dic nibble; its concrete value is unobservable in the claims). -/
def WordId.EOS : WordId := ⟨0xf0000001⟩

/-- Modelled from the spec: the full `Node` record from analysis/inner.rs
(not among the sources): boundaries, connection ids, node cost, word id,
and the whitespace flag stored alongside (spec section 3). -/
structure Node where
  begin_ : Nat
  end_ : Nat
  left_id : Nat
  right_id : Nat
  cost : Int
  word_id : WordId
  is_whitespace : Bool
deriving DecidableEq

/-- Compact predecessor record (lattice.rs lines 35-39). -/
structure VNode where
  total_cost : Int
  right_id : Nat
  prev_non_ws_right_id : Nat
deriving DecidableEq

/-- `VNode::NONE_RIGHT_ID` = u16::MAX (lattice.rs line 56). -/
def VNode.NONE_RIGHT_ID : Nat := 65535

/-- Modelled from the spec: a VNode is connected to BOS iff its total cost
is below the i32::MAX sentinel (spec section 4.1 step 2a; the PathCost
impl in analysis/node.rs is not among the sources). -/
def VNode.is_connected_to_bos (v : VNode) : Bool := v.total_cost < i32Max

/-- Modelled from the spec: `NodeIdx` = (end boundary, index) pair from
analysis/inner.rs (not among the sources). -/
structure NodeIdx where
  end_ : Nat
  index : Nat
deriving DecidableEq

/-- Modelled from the spec: the empty/sentinel NodeIdx; its concrete value
is unobservable in the claims (the source uses u16::MAX components). -/
def NodeIdx.empty : NodeIdx := ⟨65535, 65535⟩

/-- Connection matrix: pure 2-D cost lookup (external collaborator,
spec section 6); values are i16 read as i32 by the lattice. -/
def Conn := Nat → Nat → Int

/-- The Viterbi lattice state (lattice.rs lines 78-85).  The parallel
Vec-of-Vec arrays are modelled as lists of lists. -/
structure Lattice where
  ends : List (List VNode)
  ends_full : List (List Node)
  indices : List (List NodeIdx)
  eos : Option (NodeIdx × Int)
  size : Nat
  global_whitespace_bridge : Bool

/-- `Lattice::default()`: all arrays empty, size 0, bridge off. -/
def Lattice.default : Lattice := ⟨[], [], [], none, 0, false⟩

/-- In-place update of one inner vector (`self.ends[i].push(..)` etc.);
out-of-range indices leave the list unchanged. -/
def modifyAt : List α → Nat → (α → α) → List α
  | [], _, _ => []
  | x :: xs, 0, f => f x :: xs
  | x :: xs, Nat.succ n, f => x :: modifyAt xs n f

/-- `Lattice::reset_vec` (lattice.rs lines 106-117): clear every inner
vector, then grow the outer vector to `target` inner vectors. -/
def Lattice.reset_vec (data : List (List α)) (target : Nat) : List (List α) :=
  (data.map fun _ => []) ++ List.replicate (target - data.length) []

/-- `Lattice::connect_bos` (lattice.rs lines 130-132): seed boundary 0
with the single BOS VNode (cost 0, right id 0, no non-ws carrier). -/
def Lattice.connect_bos (l : Lattice) : Lattice :=
  { l with ends := modifyAt l.ends 0 (fun v => v ++ [⟨0, 0, VNode.NONE_RIGHT_ID⟩]) }

/-- `Lattice::reset` (lattice.rs lines 121-128). -/
def Lattice.reset (l : Lattice) (length : Nat) : Lattice :=
  Lattice.connect_bos
    { l with
      ends := Lattice.reset_vec l.ends (length + 1)
      ends_full := Lattice.reset_vec l.ends_full (length + 1)
      indices := Lattice.reset_vec l.indices (length + 1)
      eos := none
      size := length + 1 }

/-- `Lattice::set_global_whitespace_bridge` (lattice.rs lines 88-90):
returns the previous flag value and the updated lattice. -/
def Lattice.set_global_whitespace_bridge (l : Lattice) (enabled : Bool) : Bool × Lattice :=
  (l.global_whitespace_bridge, { l with global_whitespace_bridge := enabled })

/-- `Lattice::boundary_count` (lattice.rs lines 94-96). -/
def Lattice.boundary_count (l : Lattice) : Nat := l.size

/-- `Lattice::nodes_ending_at` (lattice.rs lines 99-104). -/
def Lattice.nodes_ending_at (l : Lattice) (boundary : Nat) : List Node :=
  l.ends_full.getD boundary []

/-- A VNode whose cost is the sentinel; `getD` with this default makes the
out-of-range reads below behave as "not connected". -/
def defaultVNode : VNode := ⟨i32Max, 0, VNode.NONE_RIGHT_ID⟩

/-- Default full node for out-of-range reads (never whitespace). -/
def defaultNode : Node := ⟨0, 0, 0, 0, 0, ⟨0⟩, false⟩

/-- The per-predecessor best incoming cost of `connect_node`
(lattice.rs lines 176-196): the normal transition cost, replaced by the
bridged transition cost when bridging is on, the predecessor is
whitespace with a known non-ws carrier, the right node is not
whitespace, and the bridged cost is strictly cheaper. -/
def bestForPred (g : Bool) (conn : Conn) (full : List Node) (begin_ : Nat)
    (r : Node) (v : VNode) (i : Nat) : Int :=
  if g && (if begin_ = 0 then false else (full.getD i defaultNode).is_whitespace)
      && !r.is_whitespace && (v.prev_non_ws_right_id != VNode.NONE_RIGHT_ID) then
    if v.total_cost + conn v.prev_non_ws_right_id r.left_id + r.cost <
        v.total_cost + conn v.right_id r.left_id + r.cost then
      v.total_cost + conn v.prev_non_ws_right_id r.left_id + r.cost
    else v.total_cost + conn v.right_id r.left_id + r.cost
  else v.total_cost + conn v.right_id r.left_id + r.cost

/-- The inner loop of `connect_node` (lattice.rs lines 171-207): fold over
the predecessors at `begin`, skipping VNodes not connected to BOS, and
keep the running minimum (strict `<` update) together with the traceback
index and the propagated non-whitespace carrier. -/
def connectLoop (g : Bool) (conn : Conn) (full : List Node) (begin_ : Nat) (r : Node) :
    List VNode → Nat → NodeIdx × Int × Nat → NodeIdx × Int × Nat
  | [], _, acc => acc
  | v :: rest, i, acc =>
    if v.is_connected_to_bos then
      let best := bestForPred g conn full begin_ r v i
      if best < acc.2.1 then
        let pn := if r.is_whitespace then v.prev_non_ws_right_id else r.right_id
        connectLoop g conn full begin_ r rest (i + 1) (⟨begin_, i⟩, best, pn)
      else connectLoop g conn full begin_ r rest (i + 1) acc
    else connectLoop g conn full begin_ r rest (i + 1) acc

/-- The predecessor VNodes at boundary `b` (`self.ends[begin]`). -/
def Lattice.predsAt (l : Lattice) (b : Nat) : List VNode := l.ends.getD b []

/-- The full nodes at boundary `b` (`self.ends_full[begin]`). -/
def Lattice.fullAt (l : Lattice) (b : Nat) : List Node := l.ends_full.getD b []

/-- `Lattice::connect_node` (lattice.rs lines 163-210): returns the chosen
predecessor index, the minimal incoming total cost, and the propagated
`prev_non_ws_right_id`. -/
def Lattice.connect_node (l : Lattice) (r : Node) (conn : Conn) : NodeIdx × Int × Nat :=
  connectLoop l.global_whitespace_bridge conn (l.fullAt r.begin_) r.begin_ r
    (l.predsAt r.begin_) 0 (NodeIdx.empty, i32Max, VNode.NONE_RIGHT_ID)

/-- `Lattice::insert` (lattice.rs lines 151-158). -/
def Lattice.insert (l : Lattice) (node : Node) (conn : Conn) : Lattice × Int :=
  let r := l.connect_node node conn
  ({ l with
      ends := modifyAt l.ends node.end_ (fun v => v ++ [⟨r.2.1, node.right_id, r.2.2⟩])
      indices := modifyAt l.indices node.end_ (fun v => v ++ [r.1])
      ends_full := modifyAt l.ends_full node.end_ (fun v => v ++ [node]) },
    r.2.1)

/-- The synthetic EOS node built by `connect_eos` (lattice.rs lines
136-139): spans the last boundary, zero ids and cost, EOS word id. -/
def Lattice.eosNode (l : Lattice) : Node :=
  ⟨l.size - 1, l.size - 1, 0, 0, 0, WordId.EOS, false⟩

/-- Error taxonomy relevant to the claims (error.rs is not among the
sources; constructors modelled from the spec's error kinds, with a
numeric payload standing for the lexicon failure detail). -/
inductive SudachiError where
  | eosBosDisconnect
  | lexiconFailure (code : Nat)
deriving DecidableEq

/-- `Lattice::connect_eos` (lattice.rs lines 135-147), in state-passing
form: on failure the lattice is returned unchanged. -/
def Lattice.connect_eos (l : Lattice) (conn : Conn) : Lattice × Except SudachiError Unit :=
  let r := l.connect_node l.eosNode conn
  if r.2.1 = i32Max then (l, .error .eosBosDisconnect)
  else ({ l with eos := some (r.1, r.2.1) }, .ok ())

/-- One reset-or-insert call of the lattice lifecycle. -/
inductive LatticeOp where
  | reset (length : Nat)
  | insert (node : Node)

/-- Run one lifecycle call. -/
def Lattice.runOp (conn : Conn) (l : Lattice) : LatticeOp → Lattice
  | .reset n => l.reset n
  | .insert node => (l.insert node conn).1

/-- Build a lattice from a sequence of reset/insert calls, starting from a
fresh lattice whose bridge flag is `g`. -/
def Lattice.runOps (g : Bool) (conn : Conn) (ops : List LatticeOp) : Lattice :=
  ops.foldl (Lattice.runOp conn) { Lattice.default with global_whitespace_bridge := g }

/-- Insert a list of nodes in order (the `insert*` phase of an analysis). -/
def Lattice.insertMany (l : Lattice) (nodes : List Node) (conn : Conn) : Lattice :=
  nodes.foldl (fun a nd => (a.insert nd conn).1) l

/-! ### Helper lemmas about `reset` and `modifyAt` -/

theorem map_const_nil (data : List (List α)) :
    (data.map fun _ => ([] : List α)) = List.replicate data.length [] := by
  induction data with
  | nil => rfl
  | cons x xs ih => simp [List.replicate, ih]

theorem reset_vec_eq_replicate (data : List (List α)) (t : Nat) :
    Lattice.reset_vec data t = List.replicate (max data.length t) [] := by
  unfold Lattice.reset_vec
  rw [map_const_nil, ← List.replicate_add]
  congr 1
  omega

theorem getD_replicate_nil (n i : Nat) :
    (List.replicate n ([] : List α)).getD i [] = [] := by
  induction n generalizing i with
  | zero => simp [List.getD]
  | succ n ih =>
    cases i with
    | zero => simp [List.replicate]
    | succ i =>
      rw [List.replicate_succ, List.getD_cons_succ]
      exact ih i

theorem getD_modifyAt_other (l : List α) (i j : Nat) (f : α → α) (d : α) (h : i ≠ j) :
    (modifyAt l i f).getD j d = l.getD j d := by
  induction l generalizing i j with
  | nil => simp [modifyAt]
  | cons x xs ih =>
    cases i with
    | zero =>
      cases j with
      | zero => exact absurd rfl h
      | succ j => simp [modifyAt, List.getD]
    | succ i =>
      cases j with
      | zero => simp [modifyAt, List.getD]
      | succ j =>
        simp only [modifyAt, List.getD_cons_succ]
        exact ih i j (by omega)

theorem getD_modifyAt_self (l : List α) (i : Nat) (f : α → α) (d : α) (h : i < l.length) :
    (modifyAt l i f).getD i d = f (l.getD i d) := by
  induction l generalizing i with
  | nil => simp at h
  | cons x xs ih =>
    cases i with
    | zero => simp [modifyAt, List.getD]
    | succ i =>
      simp only [modifyAt, List.getD_cons_succ]
      exact ih i (by simpa using h)

theorem reset_ends_getD (l : Lattice) (n : Nat) :
    (l.reset n).ends.getD 0 [] = [⟨0, 0, VNode.NONE_RIGHT_ID⟩] ∧
      ∀ i : Nat, (l.reset n).ends.getD (i + 1) [] = [] := by
  have hrep : (Lattice.reset_vec l.ends (n + 1)) =
      List.replicate (max l.ends.length (n + 1)) [] := reset_vec_eq_replicate _ _
  have hlen : 0 < (List.replicate (max l.ends.length (n + 1)) ([] : List VNode)).length := by
    rw [List.length_replicate]; omega
  constructor
  · show (modifyAt (Lattice.reset_vec l.ends (n + 1)) 0 _).getD 0 [] = _
    rw [hrep, getD_modifyAt_self _ _ _ _ hlen]
    rw [getD_replicate_nil]
    simp
  · intro i
    show (modifyAt (Lattice.reset_vec l.ends (n + 1)) 0 _).getD (i + 1) [] = _
    rw [getD_modifyAt_other _ _ _ _ _ (by omega), hrep, getD_replicate_nil]

/-! ### Claim C4 -/

/-- C4: immediately after `reset(N)` the boundary count is `N+1`,
boundary 0 holds exactly the single BOS VNode (right id 0, total cost 0,
`prev_non_ws_right_id` = NONE sentinel), every other `ends[i]` — including
slots beyond `N+1` retained from earlier, longer analyses — is empty, and
the EOS field is unset. -/
theorem c4_reset_state (l : Lattice) (n : Nat) :
    (l.reset n).boundary_count = n + 1 ∧
      (l.reset n).ends.getD 0 [] = [⟨0, 0, VNode.NONE_RIGHT_ID⟩] ∧
      (∀ i : Nat, (l.reset n).ends.getD (i + 1) [] = []) ∧
      (l.reset n).eos = none := by
  refine ⟨rfl, (reset_ends_getD l n).1, (reset_ends_getD l n).2, rfl⟩

/-! ### Claim C10 -/

/-- C10: `reset` leaves the `global_whitespace_bridge` flag unchanged for
every length, as do `insert` and `connect_eos`; the flag is modified only
by `set_global_whitespace_bridge`, which returns the previous value and
changes no other lattice state. -/
theorem c10_bridge_flag_frame :
    (∀ (l : Lattice) (n : Nat),
        (l.reset n).global_whitespace_bridge = l.global_whitespace_bridge) ∧
      (∀ (l : Lattice) (nd : Node) (conn : Conn),
        (l.insert nd conn).1.global_whitespace_bridge = l.global_whitespace_bridge) ∧
      (∀ (l : Lattice) (conn : Conn),
        (l.connect_eos conn).1.global_whitespace_bridge = l.global_whitespace_bridge) ∧
      (∀ (l : Lattice) (b : Bool),
        (l.set_global_whitespace_bridge b).1 = l.global_whitespace_bridge ∧
          (l.set_global_whitespace_bridge b).2 =
            { l with global_whitespace_bridge := b }) := by
  refine ⟨fun l n => rfl, fun l nd conn => rfl, fun l conn => ?_, fun l b => ⟨rfl, rfl⟩⟩
  show (if (l.connect_node l.eosNode conn).2.1 = i32Max then _ else _ :
      Lattice × Except SudachiError Unit).1.global_whitespace_bridge = _
  split <;> rfl

/-! ### Claim C2: `connect_eos` -/

/-- The lattice obtained by one analysis prefix: a reset to `n` codepoints
followed by a sequence of inserts. -/
def analysisLattice (l0 : Lattice) (n : Nat) (nodes : List Node) (conn : Conn) : Lattice :=
  (l0.reset n).insertMany nodes conn

theorem insertMany_size (l : Lattice) (nodes : List Node) (conn : Conn) :
    (l.insertMany nodes conn).size = l.size := by
  induction nodes generalizing l with
  | nil => rfl
  | cons nd rest ih => exact (ih ((l.insert nd conn).1)).trans rfl

theorem insertMany_eos (l : Lattice) (nodes : List Node) (conn : Conn) :
    (l.insertMany nodes conn).eos = l.eos := by
  induction nodes generalizing l with
  | nil => rfl
  | cons nd rest ih => exact (ih ((l.insert nd conn).1)).trans rfl

theorem analysisLattice_size (l0 : Lattice) (n : Nat) (nodes : List Node) (conn : Conn) :
    (analysisLattice l0 n nodes conn).size = n + 1 :=
  insertMany_size _ _ _

theorem analysisLattice_eos (l0 : Lattice) (n : Nat) (nodes : List Node) (conn : Conn) :
    (analysisLattice l0 n nodes conn).eos = none :=
  insertMany_eos _ _ _

/-- C2 counterexample: the claim states that after a reset to codepoint
length `N` the synthetic EOS node spans `[N-1, N-1]`; at `N = 1` the node
built by `connect_eos` spans `[1, 1]`, not `[0, 0]`. -/
theorem c2_counterexample :
    (Lattice.default.reset 1).eosNode.begin_ = 1 ∧
      (Lattice.default.reset 1).eosNode.end_ = 1 ∧ (1 : Nat) ≠ 1 - 1 := by
  decide

/-- C2 (amended): for every lattice reset to codepoint length `N` (then
filled by inserts), `connect_eos` creates a synthetic EOS node with
`begin = end = N` (the last boundary, `boundary_count - 1`), zero
left/right ids and zero node cost; it fails with `EosBosDisconnect`
exactly when the computed minimum incoming cost is `i32::MAX`, in which
case the `eos` field stays `None`; on success it stores the chosen
predecessor index together with the cost. -/
theorem c2_connect_eos_amended (l0 : Lattice) (n : Nat) (nodes : List Node) (conn : Conn) :
    (analysisLattice l0 n nodes conn).eosNode = ⟨n, n, 0, 0, 0, WordId.EOS, false⟩ ∧
      (((analysisLattice l0 n nodes conn).connect_eos conn).2 =
          .error .eosBosDisconnect ↔
        ((analysisLattice l0 n nodes conn).connect_node
            (analysisLattice l0 n nodes conn).eosNode conn).2.1 = i32Max) ∧
      (((analysisLattice l0 n nodes conn).connect_eos conn).2 =
          .error .eosBosDisconnect →
        ((analysisLattice l0 n nodes conn).connect_eos conn).1.eos = none) ∧
      (((analysisLattice l0 n nodes conn).connect_node
            (analysisLattice l0 n nodes conn).eosNode conn).2.1 ≠ i32Max →
        ((analysisLattice l0 n nodes conn).connect_eos conn).1.eos =
            some (((analysisLattice l0 n nodes conn).connect_node
                (analysisLattice l0 n nodes conn).eosNode conn).1,
              ((analysisLattice l0 n nodes conn).connect_node
                (analysisLattice l0 n nodes conn).eosNode conn).2.1) ∧
          ((analysisLattice l0 n nodes conn).connect_eos conn).2 = .ok ()) := by
  have hsize := analysisLattice_size l0 n nodes conn
  have heos := analysisLattice_eos l0 n nodes conn
  by_cases hc : ((analysisLattice l0 n nodes conn).connect_node
      (analysisLattice l0 n nodes conn).eosNode conn).2.1 = i32Max
  · refine ⟨?_, ?_, ?_, ?_⟩
    · unfold Lattice.eosNode
      rw [hsize]
      simp
    · simp [Lattice.connect_eos, hc]
    · intro _
      simp [Lattice.connect_eos, hc, heos]
    · intro hne
      exact absurd hc hne
  · refine ⟨?_, ?_, ?_, ?_⟩
    · unfold Lattice.eosNode
      rw [hsize]
      simp
    · simp [Lattice.connect_eos, hc]
    · intro herr
      rw [show ((analysisLattice l0 n nodes conn).connect_eos conn).2 = .ok () by
        simp [Lattice.connect_eos, hc]] at herr
      exact absurd herr (by simp)
    · intro _
      refine ⟨?_, ?_⟩ <;> simp [Lattice.connect_eos, hc]

/-- C2 witness: on the trivial analysis (reset to 0, no inserts, zero
connection costs) `connect_eos` succeeds. -/
theorem c2_witness :
    ((analysisLattice Lattice.default 0 [] (fun _ _ => 0)).connect_eos
        (fun _ _ => 0)).2 = .ok () :=
  ((c2_connect_eos_amended Lattice.default 0 [] (fun _ _ => 0)).2.2.2
      (by decide)).2

/-! ### Claim C9: python word-id decoding (src/python/src/word_info.rs) -/

/-- word_info.rs line 22. -/
def LEGACY_LEX_STRIDE : Int := 100000000

/-- word_info.rs line 23. -/
def NATIVE_LEX_SHIFT : Nat := 28

/-- word_info.rs line 24. -/
def NATIVE_WORD_MASK : Nat := 0x0fffffff

/-- word_info.rs line 25. -/
def NATIVE_OOV_DIC_ID : Int := 0xf

/-- `pack_legacy_word_id` (word_info.rs lines 58-64).  The i32 product
cannot overflow: `lex_id ≤ 14` and `relative < 2^28` in every call. -/
def pack_legacy_word_id (lex_id relative : Int) : Int :=
  if lex_id ≤ 0 then relative else lex_id * LEGACY_LEX_STRIDE + relative

/-- The `as u32` cast of an i32 value: its value modulo 2^32. -/
def i32ToU32 (v : Int) : Nat := (Int.emod v 4294967296).toNat

/-- `unpack_native_word_id` (word_info.rs lines 66-74). -/
def unpack_native_word_id (raw : Nat) : Int × Int :=
  let lex_id : Int := ((raw >>> NATIVE_LEX_SHIFT) &&& 0xf : Nat)
  let word_id : Int := (raw &&& NATIVE_WORD_MASK : Nat)
  if lex_id = NATIVE_OOV_DIC_ID then (-1, word_id) else (lex_id, word_id)

/-- `decode_dictionary_form_word_id` (word_info.rs lines 76-123), returning
`(lex_id, legacy, packed, relative)`.  In the `v ≥ LEGACY_LEX_STRIDE`
branch both operands of `/` and `%` are positive, so Euclidean division
agrees with Rust's truncating i32 division. -/
def decode_dictionary_form_word_id (v : Int) (default_lex_id : Int) :
    Int × Int × Int × Int :=
  if v = -1 then (-1, -1, -1, -1)
  else
    let raw := i32ToU32 v
    let unpacked := unpack_native_word_id raw
    if 2 ^ NATIVE_LEX_SHIFT ≤ raw ∧ 0 < unpacked.1 then
      (unpacked.1, pack_legacy_word_id unpacked.1 unpacked.2, v, unpacked.2)
    else if LEGACY_LEX_STRIDE ≤ v then
      if 0 < v / LEGACY_LEX_STRIDE then
        (v / LEGACY_LEX_STRIDE, v, v, v % LEGACY_LEX_STRIDE)
      else
        (default_lex_id, pack_legacy_word_id default_lex_id v, v, v)
    else (default_lex_id, pack_legacy_word_id default_lex_id v, v, v)

/-- C9: for every i32 value `v ≥ LEGACY_LEX_STRIDE` that the native-packed
branch does not handle, the quotient `v / LEGACY_LEX_STRIDE` is at least 1,
so the "default-local behavior for malformed values" fall-through inside
that branch is unreachable: every such `v` is decoded as a legacy-packed id
`(lex_id = v / stride, legacy = packed = v, relative = v % stride)`. -/
theorem c9_legacy_fallthrough_unreachable (v d : Int)
    (h1 : LEGACY_LEX_STRIDE ≤ v) (h2 : v ≤ 2147483647)
    (h3 : ¬(2 ^ NATIVE_LEX_SHIFT ≤ i32ToU32 v ∧
        0 < (unpack_native_word_id (i32ToU32 v)).1)) :
    1 ≤ v / LEGACY_LEX_STRIDE ∧
      decode_dictionary_form_word_id v d =
        (v / LEGACY_LEX_STRIDE, v, v, v % LEGACY_LEX_STRIDE) := by
  have hpos : (1 : Int) ≤ v / LEGACY_LEX_STRIDE := by
    rw [Int.le_ediv_iff_mul_le (by norm_num [LEGACY_LEX_STRIDE])]
    simpa [LEGACY_LEX_STRIDE] using h1
  refine ⟨hpos, ?_⟩
  unfold decode_dictionary_form_word_id
  rw [if_neg (by unfold LEGACY_LEX_STRIDE at h1; omega)]
  rw [if_neg h3, if_pos h1, if_pos (by omega)]

/-- C9 witness: `v = 100000000` is at least the stride, fits in i32, and is
not native-packed (its high nibble is 0); it decodes to lex id 1,
relative 0. -/
theorem c9_witness :
    1 ≤ 100000000 / LEGACY_LEX_STRIDE ∧
      decode_dictionary_form_word_id 100000000 0 =
        (100000000 / LEGACY_LEX_STRIDE, 100000000, 100000000,
          100000000 % LEGACY_LEX_STRIDE) :=
  c9_legacy_fallthrough_unreachable 100000000 0 (by decide) (by decide) (by decide)

/-! ### Claim C5: tie-breaking in `connect_node` -/

/-- Whether the `j`-th predecessor VNode at a boundary is connected to BOS
(the default for out-of-range reads carries the sentinel cost, hence is
not connected). -/
def connB (vs : List VNode) (j : Nat) : Bool :=
  (vs.getD j defaultVNode).is_connected_to_bos

/-- The per-predecessor best incoming cost of the `j`-th predecessor. -/
def bestAt (g : Bool) (conn : Conn) (full : List Node) (b : Nat) (r : Node)
    (vs : List VNode) (j : Nat) : Int :=
  bestForPred g conn full b r (vs.getD j defaultVNode) j

theorem connB_out_of_range (vs : List VNode) (j : Nat) (h : vs.length ≤ j) :
    connB vs j = false := by
  unfold connB
  rw [List.getD_eq_default _ _ h]
  decide

theorem drop_cons_getD (vs : List α) (i : Nat) (v : α) (rest : List α) (d : α)
    (h : vs.drop i = v :: rest) : vs.getD i d = v ∧ vs.drop (i + 1) = rest := by
  induction vs generalizing i with
  | nil => simp at h
  | cons x xs ih =>
    cases i with
    | zero =>
      simp only [List.drop_zero] at h
      cases h
      exact ⟨rfl, by simp⟩
    | succ i =>
      rw [List.drop_succ_cons] at h
      have := ih i h
      exact ⟨this.1, by rw [List.drop_succ_cons]; exact this.2⟩

theorem drop_nil_length (vs : List α) (i : Nat) (h : vs.drop i = []) :
    vs.length ≤ i := by
  have := congrArg List.length h
  simp at this
  omega

/-- Main loop invariant for the argmin characterization of `connectLoop`:
the result cost is minimal over connected predecessors, and whenever it is
not the sentinel, the recorded traceback index is the earliest connected
predecessor attaining it. -/
theorem connectLoop_argmin (g : Bool) (conn : Conn) (full : List Node) (b : Nat)
    (r : Node) (vs : List VNode) :
    ∀ (rest : List VNode) (i : Nat) (acc : NodeIdx × Int × Nat),
      rest = vs.drop i →
      (∀ j, j < i → connB vs j = true → acc.2.1 ≤ bestAt g conn full b r vs j) →
      (acc.2.1 < i32Max →
        acc.1.end_ = b ∧ connB vs acc.1.index = true ∧
          bestAt g conn full b r vs acc.1.index = acc.2.1 ∧
          ∀ j, j < acc.1.index → connB vs j = true →
            acc.2.1 < bestAt g conn full b r vs j) →
      (∀ j, connB vs j = true →
          (connectLoop g conn full b r rest i acc).2.1 ≤ bestAt g conn full b r vs j) ∧
        ((connectLoop g conn full b r rest i acc).2.1 < i32Max →
          (connectLoop g conn full b r rest i acc).1.end_ = b ∧
            connB vs (connectLoop g conn full b r rest i acc).1.index = true ∧
            bestAt g conn full b r vs (connectLoop g conn full b r rest i acc).1.index =
              (connectLoop g conn full b r rest i acc).2.1 ∧
            ∀ j, j < (connectLoop g conn full b r rest i acc).1.index →
              connB vs j = true →
              (connectLoop g conn full b r rest i acc).2.1 <
                bestAt g conn full b r vs j) := by
  intro rest
  induction rest with
  | nil =>
    intro i acc hdrop hmin hbest
    have hlen := drop_nil_length vs i hdrop.symm
    simp only [connectLoop]
    constructor
    · intro j hj
      rcases Nat.lt_or_ge j i with hji | hji
      · exact hmin j hji hj
      · exact absurd hj (by rw [connB_out_of_range vs j (by omega)]; decide)
    · intro hlt
      obtain ⟨h1, h2, h3, h4⟩ := hbest hlt
      exact ⟨h1, h2, h3, h4⟩
  | cons v rest' ih =>
    intro i acc hdrop hmin hbest
    obtain ⟨hget, hdrop'⟩ := drop_cons_getD vs i v rest' defaultVNode hdrop.symm
    by_cases hconn : v.is_connected_to_bos
    · have hconnB : connB vs i = true := by rw [connB, hget]; exact hconn
      by_cases hupd : bestForPred g conn full b r v i < acc.2.1
      · rw [show connectLoop g conn full b r (v :: rest') i acc =
            connectLoop g conn full b r rest' (i + 1)
              (⟨b, i⟩, bestForPred g conn full b r v i,
                if r.is_whitespace then v.prev_non_ws_right_id else r.right_id) by
          simp [connectLoop, hconn, hupd]]
        refine ih (i + 1) _ hdrop'.symm ?_ ?_
        · intro j hj hcj
          rcases Nat.lt_or_ge j i with hji | hji
          · have := hmin j hji hcj
            show bestForPred g conn full b r v i ≤ bestAt g conn full b r vs j
            omega
          · have hji' : j = i := by omega
            subst hji'
            rw [bestAt, hget]
        · intro _
          refine ⟨rfl, hconnB, by rw [bestAt, hget], ?_⟩
          intro j hj hcj
          have hj' : j < i := hj
          have := hmin j hj' hcj
          show bestForPred g conn full b r v i < bestAt g conn full b r vs j
          omega
      · rw [show connectLoop g conn full b r (v :: rest') i acc =
            connectLoop g conn full b r rest' (i + 1) acc by
          simp [connectLoop, hconn, hupd]]
        refine ih (i + 1) acc hdrop'.symm ?_ hbest
        intro j hj hcj
        rcases Nat.lt_or_ge j i with hji | hji
        · exact hmin j hji hcj
        · have hji' : j = i := by omega
          subst hji'
          rw [bestAt, hget]
          omega
    · rw [show connectLoop g conn full b r (v :: rest') i acc =
          connectLoop g conn full b r rest' (i + 1) acc by
        simp [connectLoop, hconn]]
      refine ih (i + 1) acc hdrop'.symm ?_ hbest
      intro j hj hcj
      rcases Nat.lt_or_ge j i with hji | hji
      · exact hmin j hji hcj
      · have hji' : j = i := by omega
        subst hji'
        rw [connB, hget] at hcj
        exact absurd hcj (by simpa using hconn)

/-- C5: when `connect_node` finds a reachable predecessor (minimum below
the i32::MAX sentinel), the recorded traceback pointer is the earliest
BOS-connected predecessor in `ends[begin]` attaining the minimal
per-predecessor best cost — in particular, among two or more BOS-connected
predecessors with equal best incoming cost the smallest index wins,
because the running minimum is updated only on strictly smaller cost. -/
theorem c5_tie_break_earliest (l : Lattice) (r : Node) (conn : Conn)
    (hmin : (l.connect_node r conn).2.1 < i32Max) :
    (l.connect_node r conn).1.end_ = r.begin_ ∧
      connB (l.predsAt r.begin_) (l.connect_node r conn).1.index = true ∧
      bestAt l.global_whitespace_bridge conn (l.fullAt r.begin_) r.begin_ r
          (l.predsAt r.begin_) (l.connect_node r conn).1.index =
        (l.connect_node r conn).2.1 ∧
      (∀ j, connB (l.predsAt r.begin_) j = true →
        (l.connect_node r conn).2.1 ≤
          bestAt l.global_whitespace_bridge conn (l.fullAt r.begin_) r.begin_ r
            (l.predsAt r.begin_) j) ∧
      (∀ j, j < (l.connect_node r conn).1.index →
        connB (l.predsAt r.begin_) j = true →
        (l.connect_node r conn).2.1 <
          bestAt l.global_whitespace_bridge conn (l.fullAt r.begin_) r.begin_ r
            (l.predsAt r.begin_) j) ∧
      (∀ i j, i < j → connB (l.predsAt r.begin_) i = true →
        connB (l.predsAt r.begin_) j = true →
        bestAt l.global_whitespace_bridge conn (l.fullAt r.begin_) r.begin_ r
            (l.predsAt r.begin_) i = (l.connect_node r conn).2.1 →
        bestAt l.global_whitespace_bridge conn (l.fullAt r.begin_) r.begin_ r
            (l.predsAt r.begin_) j = (l.connect_node r conn).2.1 →
        (l.connect_node r conn).1.index ≤ i) := by
  have h := connectLoop_argmin l.global_whitespace_bridge conn (l.fullAt r.begin_)
    r.begin_ r (l.predsAt r.begin_) (l.predsAt r.begin_) 0
    (NodeIdx.empty, i32Max, VNode.NONE_RIGHT_ID) (by simp)
    (by intro j hj; omega)
    (by intro hlt; exact absurd hlt (by decide))
  rw [show connectLoop l.global_whitespace_bridge conn (l.fullAt r.begin_) r.begin_ r
      (l.predsAt r.begin_) 0 (NodeIdx.empty, i32Max, VNode.NONE_RIGHT_ID) =
      l.connect_node r conn from rfl] at h
  obtain ⟨hle, hchar⟩ := h
  obtain ⟨h1, h2, h3, h4⟩ := hchar hmin
  refine ⟨h1, h2, h3, hle, h4, ?_⟩
  intro i j hij hci hcj hbi hbj
  by_contra hgt
  have : (l.connect_node r conn).2.1 <
      bestAt l.global_whitespace_bridge conn (l.fullAt r.begin_) r.begin_ r
        (l.predsAt r.begin_) i := h4 i (by omega) hci
  omega

/-- C5 witness: two predecessors with equal (zero) best cost at boundary 1;
the recorded index is not the later one. -/
theorem c5_witness :
    ((analysisLattice Lattice.default 2
          [⟨0, 1, 0, 1, 0, ⟨1⟩, false⟩, ⟨0, 1, 0, 2, 0, ⟨2⟩, false⟩]
          (fun _ _ => 0)).connect_node ⟨1, 2, 0, 3, 0, ⟨3⟩, false⟩
        (fun _ _ => 0)).1.index ≤ 0 :=
  (c5_tie_break_earliest _ _ _ (by decide)).2.2.2.2.2 0 1 (by decide)
    (by decide) (by decide) (by decide) (by decide)

/-! ### Claim C1: bridging never worsens the best path cost -/

/-- Pointwise simulation relation between the VNodes of the bridged and
the plain lattice: same right id, bridged total cost no larger. -/
def VNle (vb vp : VNode) : Prop :=
  vb.right_id = vp.right_id ∧ vb.total_cost ≤ vp.total_cost

/-- Simulation relation between a bridged and a plain lattice built from
the same call sequence. -/
def LatRel (lb lp : Lattice) : Prop :=
  lb.ends_full = lp.ends_full ∧ lb.size = lp.size ∧
    List.Forall₂ (List.Forall₂ VNle) lb.ends lp.ends ∧
    lb.global_whitespace_bridge = true ∧ lp.global_whitespace_bridge = false

theorem forall2_getD {R : α → β → Prop} {d1 : α} {d2 : β} (h0 : R d1 d2) :
    ∀ {as : List α} {bs : List β}, List.Forall₂ R as bs →
      ∀ i, R (as.getD i d1) (bs.getD i d2) := by
  intro as bs h
  induction h with
  | nil => intro i; simpa [List.getD] using h0
  | cons hx _ ih =>
    intro i
    cases i with
    | zero => simpa [List.getD] using hx
    | succ i => simpa [List.getD] using ih i

theorem forall2_append_single {R : α → β → Prop} {as : List α} {bs : List β}
    (h : List.Forall₂ R as bs) {a : α} {b : β} (hab : R a b) :
    List.Forall₂ R (as ++ [a]) (bs ++ [b]) := by
  induction h with
  | nil => exact List.Forall₂.cons hab List.Forall₂.nil
  | cons hx _ ih => exact List.Forall₂.cons hx ih

theorem forall2_modifyAt {R : α → β → Prop} {f : α → α} {g : β → β}
    (hfg : ∀ x y, R x y → R (f x) (g y)) :
    ∀ {as : List α} {bs : List β}, List.Forall₂ R as bs →
      ∀ i, List.Forall₂ R (modifyAt as i f) (modifyAt bs i g) := by
  intro as bs h
  induction h with
  | nil => intro i; exact List.Forall₂.nil
  | @cons x y xs ys hx hrest ih =>
    intro i
    cases i with
    | zero => exact List.Forall₂.cons (hfg x y hx) hrest
    | succ i => exact List.Forall₂.cons hx (ih i)

theorem forall2_refl_of {R : α → α → Prop} (h : ∀ x, R x x) (l : List α) :
    List.Forall₂ R l l := by
  induction l with
  | nil => exact List.Forall₂.nil
  | cons x xs ih => exact List.Forall₂.cons (h x) ih

/-- With bridging off, the per-predecessor best is the normal transition. -/
theorem bestForPred_false_eq (conn : Conn) (full : List Node) (b : Nat)
    (r : Node) (v : VNode) (i : Nat) :
    bestForPred false conn full b r v i =
      v.total_cost + conn v.right_id r.left_id + r.cost := by
  unfold bestForPred
  simp

/-- With bridging on, the per-predecessor best never exceeds the normal
transition (the bridged transition is taken only when strictly cheaper). -/
theorem bestForPred_true_le (conn : Conn) (full : List Node) (b : Nat)
    (r : Node) (v : VNode) (i : Nat) :
    bestForPred true conn full b r v i ≤
      v.total_cost + conn v.right_id r.left_id + r.cost := by
  unfold bestForPred
  split
  · split <;> omega
  · omega

theorem bestForPred_le {vb vp : VNode} (conn : Conn) (full : List Node) (b : Nat)
    (r : Node) (i : Nat) (h : VNle vb vp) :
    bestForPred true conn full b r vb i ≤ bestForPred false conn full b r vp i := by
  obtain ⟨hrid, hle⟩ := h
  rw [bestForPred_false_eq]
  calc bestForPred true conn full b r vb i
      ≤ vb.total_cost + conn vb.right_id r.left_id + r.cost :=
        bestForPred_true_le conn full b r vb i
    _ ≤ vp.total_cost + conn vp.right_id r.left_id + r.cost := by rw [hrid]; omega

theorem connected_of_le {vb vp : VNode} (hle : vb.total_cost ≤ vp.total_cost)
    (h : vp.is_connected_to_bos = true) : vb.is_connected_to_bos = true := by
  simp only [VNode.is_connected_to_bos, decide_eq_true_eq] at h ⊢
  omega

/-- The running minimum of the bridged loop stays below the plain one. -/
theorem connectLoop_le (conn : Conn) (full : List Node) (b : Nat) (r : Node) :
    ∀ {vbs vps : List VNode}, List.Forall₂ VNle vbs vps →
      ∀ (i : Nat) (accB accP : NodeIdx × Int × Nat), accB.2.1 ≤ accP.2.1 →
        (connectLoop true conn full b r vbs i accB).2.1 ≤
          (connectLoop false conn full b r vps i accP).2.1 := by
  intro vbs vps h
  induction h with
  | nil =>
    intro i accB accP hle
    simpa [connectLoop] using hle
  | @cons vb vp restB restP hv _ ih =>
    intro i accB accP hle
    have hbb : bestForPred true conn full b r vb i ≤
        bestForPred false conn full b r vp i := bestForPred_le conn full b r i hv
    by_cases hcp : vp.is_connected_to_bos
    · have hcb : vb.is_connected_to_bos = true := connected_of_le hv.2 hcp
      by_cases hub : bestForPred true conn full b r vb i < accB.2.1 <;>
        by_cases hup : bestForPred false conn full b r vp i < accP.2.1 <;>
          simp only [connectLoop, hcb, hcp, hub, hup, if_true, if_false, ite_true,
            ite_false] <;>
          apply ih (i + 1) <;> (try simp) <;> omega
    · by_cases hcb : vb.is_connected_to_bos
      · by_cases hub : bestForPred true conn full b r vb i < accB.2.1 <;>
          simp only [connectLoop, hcb, hcp, hub, if_true, if_false, ite_true,
            ite_false] <;>
          apply ih (i + 1) <;> (try simp) <;> omega
      · simp only [connectLoop, hcb, hcp, if_false, ite_false]
        exact ih (i + 1) accB accP hle

theorem connect_node_cost_le {lb lp : Lattice} (h : LatRel lb lp) (r : Node)
    (conn : Conn) :
    (lb.connect_node r conn).2.1 ≤ (lp.connect_node r conn).2.1 := by
  obtain ⟨hfull, _, hends, hgb, hgp⟩ := h
  unfold Lattice.connect_node Lattice.predsAt Lattice.fullAt
  rw [hgb, hgp, hfull]
  exact connectLoop_le conn _ r.begin_ r
    (forall2_getD List.Forall₂.nil hends r.begin_) 0 _ _ (le_refl _)

theorem insert_LatRel {lb lp : Lattice} (h : LatRel lb lp) (nd : Node)
    (conn : Conn) : LatRel (lb.insert nd conn).1 (lp.insert nd conn).1 := by
  have hc := connect_node_cost_le h nd conn
  obtain ⟨hfull, hsize, hends, hgb, hgp⟩ := h
  refine ⟨?_, hsize, ?_, hgb, hgp⟩
  · show modifyAt lb.ends_full nd.end_ _ = modifyAt lp.ends_full nd.end_ _
    rw [hfull]
  · show List.Forall₂ (List.Forall₂ VNle) (modifyAt lb.ends nd.end_ _)
      (modifyAt lp.ends nd.end_ _)
    refine forall2_modifyAt ?_ hends nd.end_
    intro x y hxy
    exact forall2_append_single hxy ⟨rfl, hc⟩

theorem reset_LatRel {lb lp : Lattice} (h : LatRel lb lp) (n : Nat) :
    LatRel (lb.reset n) (lp.reset n) := by
  obtain ⟨hfull, hsize, hends, hgb, hgp⟩ := h
  have hlen : lb.ends.length = lp.ends.length := hends.length_eq
  have hendseq : (lb.reset n).ends = (lp.reset n).ends := by
    show modifyAt (Lattice.reset_vec lb.ends (n + 1)) 0 _ =
      modifyAt (Lattice.reset_vec lp.ends (n + 1)) 0 _
    rw [reset_vec_eq_replicate, reset_vec_eq_replicate, hlen]
  refine ⟨?_, rfl, ?_, hgb, hgp⟩
  · show Lattice.reset_vec lb.ends_full (n + 1) = Lattice.reset_vec lp.ends_full (n + 1)
    rw [hfull]
  · rw [hendseq]
    exact forall2_refl_of (fun x => forall2_refl_of (fun v => ⟨rfl, le_refl _⟩) x) _

theorem runOps_LatRel (conn : Conn) (ops : List LatticeOp) :
    LatRel (Lattice.runOps true conn ops) (Lattice.runOps false conn ops) := by
  suffices haux : ∀ (ops : List LatticeOp) (lb lp : Lattice), LatRel lb lp →
      LatRel (ops.foldl (Lattice.runOp conn) lb) (ops.foldl (Lattice.runOp conn) lp) by
    exact haux ops _ _ ⟨rfl, rfl, List.Forall₂.nil, rfl, rfl⟩
  intro ops
  induction ops with
  | nil => intro lb lp h; exact h
  | cons op rest ih =>
    intro lb lp h
    cases op with
    | reset m => exact ih _ _ (reset_LatRel h m)
    | insert nd => exact ih _ _ (insert_LatRel h nd conn)

/-- C1: for every lattice built from the same sequence of reset/insert
calls over the same connection matrix, the best total path cost found by
`connect_eos` (the minimum computed by `connect_node` over the synthetic
EOS node) with `global_whitespace_bridge = true` is at most the cost with
the flag false; per predecessor, the bridged transition is used only when
it is strictly cheaper than the normal one, so the per-predecessor best
with bridging on never exceeds the one with bridging off. -/
theorem c1_bridge_never_worsens (ops : List LatticeOp) (conn : Conn) :
    ((Lattice.runOps true conn ops).connect_node
        (Lattice.runOps true conn ops).eosNode conn).2.1 ≤
      ((Lattice.runOps false conn ops).connect_node
        (Lattice.runOps false conn ops).eosNode conn).2.1 ∧
      ∀ (full : List Node) (b : Nat) (r : Node) (v : VNode) (i : Nat),
        bestForPred true conn full b r v i ≤ bestForPred false conn full b r v i := by
  have hrel := runOps_LatRel conn ops
  constructor
  · have heq : (Lattice.runOps true conn ops).eosNode =
        (Lattice.runOps false conn ops).eosNode := by
      unfold Lattice.eosNode
      rw [hrel.2.1]
    rw [heq]
    exact connect_node_cost_le hrel _ conn
  · intro full b r v i
    exact bestForPred_le conn full b r i ⟨rfl, le_refl _⟩

/-! ### Reading-candidate enumerator (reading_candidates/mod.rs) -/

/-- Output token record (mod.rs lines 32-39). -/
structure ReadingCandidateToken where
  word_id : WordId
  surface : String
  reading_form : String
  begin_ : Nat
  end_ : Nat
deriving DecidableEq

/-- Output path record (mod.rs lines 41-45). -/
structure ReadingCandidatePath where
  total_cost : Int
  tokens : List ReadingCandidateToken
deriving DecidableEq

/-- Reference to a node by (end boundary, index) (mod.rs lines 47-51). -/
structure NodeRef where
  end_ : Nat
  index : Nat
deriving DecidableEq

/-- Search state (mod.rs lines 53-58). -/
structure SearchState where
  boundary : Nat
  prev_right_id : Nat
  reading_offset : Nat
deriving DecidableEq

/-- Modelled from the spec: the `WordInfo` fields this module reads
(dic/lexicon/word_infos.rs is not among the sources): surface, reading
form, POS id. -/
structure WordInfo where
  surface : String
  reading_form : String
  pos_id : Nat
deriving DecidableEq

/-- Per-node precomputed data (mod.rs lines 60-65). -/
structure NodeMeta where
  node : Node
  word_info : WordInfo
  match_variants : List String
deriving DecidableEq

/-- `NodeMeta::reading_for_output` (mod.rs lines 68-75). -/
def NodeMeta.reading_for_output (m : NodeMeta) : String :=
  if m.word_info.reading_form = "" then m.word_info.surface else m.word_info.reading_form

/-- `NodeMeta::as_candidate_token` (mod.rs lines 77-85). -/
def NodeMeta.as_candidate_token (m : NodeMeta) : ReadingCandidateToken :=
  ⟨m.node.word_id, m.word_info.surface, m.reading_for_output, m.node.begin_, m.node.end_⟩

/-- `hira_to_kata` (mod.rs lines 88-95): shift hiragana codepoints
U+3041..U+3096 and U+309D..U+309F by +0x60; `char::from_u32(..).unwrap_or`
keeps the original character if the shifted value were invalid. -/
def hira_to_kata (c : Char) : Char :=
  if (0x3041 ≤ c.toNat ∧ c.toNat ≤ 0x3096) ∨ (0x309d ≤ c.toNat ∧ c.toNat ≤ 0x309f) then
    if (c.toNat + 0x60).isValidChar then Char.ofNat (c.toNat + 0x60) else c
  else c

/-- `normalize_for_matching` (mod.rs lines 97-104), parameterized by the
external NFKC normalizer and the full per-codepoint Unicode lowercasing
(unicode_normalization crate and `char::to_lowercase`, both external). -/
def normalize_for_matching (nfkc : String → String) (lower : Char → List Char)
    (text : String) : String :=
  let nfkcS := nfkc text
  let lowerS := String.mk (nfkcS.data.flatMap lower)
  String.mk (lowerS.data.map hira_to_kata)

/-- The source's `HashSet::insert` guard (mod.rs lines 119-127): keep an
element only when it was not seen before, threading the seen set. -/
def dedupAux (seen : List String) : List String → List String
  | [] => []
  | x :: xs =>
    if seen.contains x then dedupAux seen xs else x :: dedupAux (x :: seen) xs

/-- Keep-first deduplication with an initially empty seen set. -/
def dedupFirst (l : List String) : List String := dedupAux [] l

/-- `build_match_variants` (mod.rs lines 106-130): normalized reading form
(preferred) then normalized surface, dropping empty strings and keeping
the first occurrence of duplicates. -/
def build_match_variants (nfkc : String → String) (lower : Char → List Char)
    (w : WordInfo) : List String :=
  dedupFirst
    (((if w.reading_form = "" then [w.surface] else [w.reading_form, w.surface]).map
        (normalize_for_matching nfkc lower)).filter (fun s => s != ""))

/-- Modelled from the spec: the READING_FORM bit of `InfoSubset` (the
concrete bit value is not observable in the claims). -/
def READING_FORM : Nat := 1

/-- Modelled from the spec: the SURFACE bit of `InfoSubset`. -/
def SURFACE : Nat := 2

/-- `make_word_info` (mod.rs lines 132-149): OOV nodes synthesize a
minimal word info from the input slice (`pos_id` is the low 16 bits of the
word field); dictionary nodes query the lexicon, whose errors propagate. -/
def make_word_info (input : Nat → Nat → String)
    (lex : Nat → WordId → Except SudachiError WordInfo) (read_subset : Nat)
    (node : Node) : Except SudachiError WordInfo :=
  if node.word_id.is_oov then
    Except.ok ⟨input node.begin_ node.end_, "", node.word_id.word &&& 0xffff⟩
  else lex read_subset node.word_id

/-- UTF-8 encoding of one scalar value (`str::as_bytes` per character). -/
def utf8Bytes (c : Char) : List UInt8 :=
  let n := c.toNat
  if n < 0x80 then [UInt8.ofNat n]
  else if n < 0x800 then
    [UInt8.ofNat (0xC0 ||| (n >>> 6)), UInt8.ofNat (0x80 ||| (n &&& 0x3F))]
  else if n < 0x10000 then
    [UInt8.ofNat (0xE0 ||| (n >>> 12)), UInt8.ofNat (0x80 ||| ((n >>> 6) &&& 0x3F)),
      UInt8.ofNat (0x80 ||| (n &&& 0x3F))]
  else
    [UInt8.ofNat (0xF0 ||| (n >>> 18)), UInt8.ofNat (0x80 ||| ((n >>> 12) &&& 0x3F)),
      UInt8.ofNat (0x80 ||| ((n >>> 6) &&& 0x3F)), UInt8.ofNat (0x80 ||| (n &&& 0x3F))]

/-- The UTF-8 bytes of a string (`str::as_bytes`). -/
def strBytes (s : String) : List UInt8 := s.data.flatMap utf8Bytes

/-- The searcher's read-only environment (mod.rs lines 151-162, the
borrowed fields of `Searcher`). -/
structure SearchEnv where
  conn : Conn
  reading : List UInt8
  end_boundary : Nat
  max_results : Nat
  min_tokens : Nat
  nodes_by_begin : List (List NodeRef)
  metas_by_end : List (List NodeMeta)

/-- Default metadata for out-of-range reads. -/
def defaultMeta : NodeMeta := ⟨defaultNode, ⟨"", "", 0⟩, []⟩

/-- `self.metas_by_end[node_ref.end][node_ref.index]`. -/
def metaAt (env : SearchEnv) (ref : NodeRef) : NodeMeta :=
  (env.metas_by_end.getD ref.end_ []).getD ref.index defaultMeta

/-- The admissible transitions out of a state: for each node starting at
the state's boundary and each of its match variants, the variant must be
nonempty, fit in the remaining normalized reading, and be a byte prefix of
it (the common loop body of mod.rs lines 249-277 and 312-336).  Each
transition carries its step cost (connection cost plus node cost), the
node reference, and the successor state. -/
def transitionsOf (env : SearchEnv) (state : SearchState) :
    List (Int × NodeRef × SearchState) :=
  (env.nodes_by_begin.getD state.boundary []).flatMap fun ref =>
    (metaAt env ref).match_variants.filterMap fun v =>
      let tb := strBytes v
      if tb = [] then none
      else if env.reading.length < state.reading_offset + tb.length then none
      else if tb.isPrefixOf (env.reading.drop state.reading_offset) then
        some (env.conn state.prev_right_id (metaAt env ref).node.left_id +
            (metaAt env ref).node.cost,
          ref,
          ⟨(metaAt env ref).node.end_, (metaAt env ref).node.right_id,
            state.reading_offset + tb.length⟩)
      else none

/-- Lookup in the memoization cache (`HashMap::get`, modelled as the first
matching entry of an association list). -/
def cacheLookup : List (SearchState × Option Int) → SearchState → Option (Option Int)
  | [], _ => none
  | p :: rest, s => if p.1 = s then some p.2 else cacheLookup rest s

/-- The fold over admissible transitions inside
`min_additional_cost_from_state` (mod.rs lines 249-278), parameterized by
the recursive heuristic at the next fuel level. -/
def minAddList
    (f : SearchState → List (SearchState × Option Int) →
      Option Int × List (SearchState × Option Int)) :
    List (Int × NodeRef × SearchState) → Option Int →
      List (SearchState × Option Int) →
      Option Int × List (SearchState × Option Int)
  | [], best, cache => (best, cache)
  | t :: rest, best, cache =>
    minAddList f rest
      (match (f t.2.2 cache).1 with
        | none => best
        | some remv => match best with
          | none => some (t.1 + remv)
          | some cur => some (min cur (t.1 + remv)))
      (f t.2.2 cache).2

/-- `Searcher::min_additional_cost_from_state` (mod.rs lines 234-284):
memoized minimum cost-to-go, `none` when acceptance is unreachable.  The
`fuel` argument is an embedding device for termination; the source
recursion terminates because node spans advance the boundary. -/
def minAddCost (env : SearchEnv) : Nat → SearchState →
    List (SearchState × Option Int) →
    Option Int × List (SearchState × Option Int)
  | 0, _, cache => (none, cache)
  | Nat.succ fuel', state, cache =>
    match cacheLookup cache state with
    | some v => (v, cache)
    | none =>
      if state.boundary = env.end_boundary then
        (if state.reading_offset = env.reading.length then
            some (env.conn state.prev_right_id 0) else none,
          (state,
            if state.reading_offset = env.reading.length then
              some (env.conn state.prev_right_id 0) else none) :: cache)
      else
        ((minAddList (minAddCost env fuel') (transitionsOf env state) none cache).1,
          (state,
            (minAddList (minAddCost env fuel') (transitionsOf env state) none cache).1) ::
            (minAddList (minAddCost env fuel') (transitionsOf env state) none cache).2)

/-- The searcher's mutable state (mod.rs lines 159-161): the DFS path, the
retained results, and the memoization cache. -/
structure SearcherSt where
  path : List NodeRef
  results : List ReadingCandidatePath
  min_cost_cache : List (SearchState × Option Int)

/-- `Searcher::worst_kept_cost` (mod.rs lines 202-208). -/
def worstKept (env : SearchEnv) (st : SearcherSt) : Option Int :=
  if st.results.length < env.max_results then none
  else (st.results.map (fun r => r.total_cost)).max?

/-- `Iterator::max_by` over the enumerated results: the last element among
equally maximal ones, with its index (mod.rs lines 222-227). -/
def argmaxLast (l : List ReadingCandidatePath) : Option (Nat × ReadingCandidatePath) :=
  l.enum.foldl
    (fun acc p => match acc with
      | none => some p
      | some q => if q.2.total_cost ≤ p.2.total_cost then some p else some q)
    none

/-- `Searcher::record_result` (mod.rs lines 210-232): append while below
capacity, otherwise replace the worst retained result when strictly
cheaper. -/
def record_result (env : SearchEnv) (st : SearcherSt) (total : Int) : SearcherSt :=
  let tokens := st.path.map (fun ref => (metaAt env ref).as_candidate_token)
  if st.results.length < env.max_results then
    ⟨st.path, st.results ++ [⟨total, tokens⟩], st.min_cost_cache⟩
  else
    match argmaxLast st.results with
    | none => st
    | some q =>
      if total < q.2.total_cost then
        ⟨st.path, st.results.set q.1 ⟨total, tokens⟩, st.min_cost_cache⟩
      else st

/-- The prune test of the branch-and-bound: defined only once the result
buffer is at capacity (mod.rs lines 291-295 and 348-352). -/
def prunedBy (wk : Option Int) (est : Int) : Bool :=
  match wk with
  | some w => decide (w < est)
  | none => false

/-- The transition sort of `dfs` (mod.rs lines 339-345): stable sort by
the estimated total only.  The source uses `sort_by`, a stable sort, which
is extensionally equal to stable insertion sort. -/
def sortTrans (l : List (Int × Int × NodeRef × SearchState)) :
    List (Int × Int × NodeRef × SearchState) :=
  List.insertionSort (fun a b => a.1 ≤ b.1) l

/-- The final result sort (mod.rs line 195): stable sort by total cost. -/
def sortByCost (l : List ReadingCandidatePath) : List ReadingCandidatePath :=
  List.insertionSort (fun a b => a.total_cost ≤ b.total_cost) l

/-- The estimate-collection loop of `dfs` (mod.rs lines 310-337): compute
the heuristic for each admissible successor, keep reachable ones with
`est_total = base + step + h(next)`, threading the cache. -/
def dfsCollect (env : SearchEnv) (fuelM : Nat) (base : Int) :
    List (Int × NodeRef × SearchState) → List (SearchState × Option Int) →
      List (Int × Int × NodeRef × SearchState) × List (SearchState × Option Int)
  | [], c => ([], c)
  | t :: rest, c =>
    let r := minAddCost env fuelM t.2.2 c
    let tl := dfsCollect env fuelM base rest r.2
    match r.1 with
    | some remv => ((base + t.1 + remv, t.1, t.2.1, t.2.2) :: tl.1, tl.2)
    | none => (tl.1, tl.2)

/-- The recursion loop of `dfs` over sorted transitions (mod.rs lines
347-356): skip transitions whose estimate exceeds the worst kept cost,
push the node on the path, recurse, pop.  Parameterized by the recursive
search at the next fuel level. -/
def dfsLoop (env : SearchEnv)
    (f : SearchState → Int → SearcherSt → SearcherSt) (base : Int) :
    List (Int × Int × NodeRef × SearchState) → SearcherSt → SearcherSt
  | [], st => st
  | t :: rest, st =>
    if prunedBy (worstKept env st) t.1 then dfsLoop env f base rest st
    else
      dfsLoop env f base rest
        ⟨(f t.2.2.2 (base + t.2.1)
            ⟨st.path ++ [t.2.2.1], st.results, st.min_cost_cache⟩).path.dropLast,
          (f t.2.2.2 (base + t.2.1)
            ⟨st.path ++ [t.2.2.1], st.results, st.min_cost_cache⟩).results,
          (f t.2.2.2 (base + t.2.1)
            ⟨st.path ++ [t.2.2.1], st.results, st.min_cost_cache⟩).min_cost_cache⟩

/-- `Searcher::dfs` (mod.rs lines 286-357).  The `fuel` argument is an
embedding device for termination; the source recursion terminates because
node spans advance the boundary. -/
def dfs (env : SearchEnv) : Nat → SearchState → Int → SearcherSt → SearcherSt
  | 0, _, _, st => st
  | Nat.succ fuel', state, base, st =>
    match minAddCost env (fuel' + 1) state st.min_cost_cache with
    | (none, c2) => ⟨st.path, st.results, c2⟩
    | (some minAdd, c2) =>
      if prunedBy (worstKept env ⟨st.path, st.results, c2⟩) (base + minAdd) then
        ⟨st.path, st.results, c2⟩
      else if state.boundary = env.end_boundary then
        if state.reading_offset ≠ env.reading.length then ⟨st.path, st.results, c2⟩
        else if st.path.length < env.min_tokens then ⟨st.path, st.results, c2⟩
        else record_result env ⟨st.path, st.results, c2⟩
          (base + env.conn state.prev_right_id 0)
      else
        dfsLoop env (dfs env fuel') base
          (sortTrans (dfsCollect env (fuel' + 1) base (transitionsOf env state) c2).1)
          ⟨st.path, st.results,
            (dfsCollect env (fuel' + 1) base (transitionsOf env state) c2).2⟩

/-- `Searcher::run` (mod.rs lines 188-200): run the DFS from the start
state, sort results by ascending total cost, truncate to `max_results`. -/
def searcherRun (env : SearchEnv) (fuel : Nat) : List ReadingCandidatePath :=
  let st := dfs env fuel ⟨0, 0, 0⟩ 0 ⟨[], [], []⟩
  (sortByCost st.results).take env.max_results

/-- The per-boundary precomputation loop body (mod.rs lines 393-406):
resolve word info (propagating lexicon errors), build match variants,
record the node under its begin boundary. -/
def buildNodes (nfkc : String → String) (lower : Char → List Char)
    (input : Nat → Nat → String)
    (lex : Nat → WordId → Except SudachiError WordInfo) (read_subset : Nat) :
    List Node → Nat → List (List NodeRef) → List NodeMeta →
      Except SudachiError (List (List NodeRef) × List NodeMeta)
  | [], _, nbb, metas => .ok (nbb, metas)
  | node :: rest, end_, nbb, metas =>
    match make_word_info input lex read_subset node with
    | .error e => .error e
    | .ok wi =>
      buildNodes nfkc lower input lex read_subset rest end_
        (modifyAt nbb node.begin_ (fun v => v ++ [⟨end_, metas.length⟩]))
        (metas ++ [⟨node, wi, build_match_variants nfkc lower wi⟩])

/-- The precomputation over all boundaries (mod.rs lines 391-408). -/
def buildAll (nfkc : String → String) (lower : Char → List Char)
    (lattice : Lattice) (input : Nat → Nat → String)
    (lex : Nat → WordId → Except SudachiError WordInfo) (read_subset : Nat) :
    Nat → Nat → List (List NodeRef) → List (List NodeMeta) →
      Except SudachiError (List (List NodeRef) × List (List NodeMeta))
  | _, 0, nbb, mbe => .ok (nbb, mbe)
  | end_, Nat.succ remaining, nbb, mbe =>
    match buildNodes nfkc lower input lex read_subset
      (lattice.nodes_ending_at end_) end_ nbb [] with
    | .error e => .error e
    | .ok r =>
      buildAll nfkc lower lattice input lex read_subset (end_ + 1) remaining
        r.1 (mbe ++ [r.2])

/-- Packs the searcher environment from the precomputation result
(the `Searcher::new` call, mod.rs lines 410-419). -/
def mkSearchEnv (conn : Conn) (reading : List UInt8) (end_boundary K M : Nat)
    (r : List (List NodeRef) × List (List NodeMeta)) : SearchEnv :=
  ⟨conn, reading, end_boundary, K, M, r.1, r.2⟩

/-- `enumerate_reading_candidates` (mod.rs lines 360-421), parameterized by
the external NFKC normalizer, lowercasing, input buffer, and lexicon.  The
`fuel` argument is an embedding device for the searcher's termination. -/
def enumerate_reading_candidates (nfkc : String → String)
    (lower : Char → List Char) (lattice : Lattice)
    (input : Nat → Nat → String)
    (lex : Nat → WordId → Except SudachiError WordInfo) (conn : Conn)
    (subset : Nat) (reading : String) (max_results min_tokens fuel : Nat) :
    Except SudachiError (List ReadingCandidatePath) :=
  if max_results = 0 then .ok []
  else if normalize_for_matching nfkc lower reading = "" then .ok []
  else if lattice.boundary_count = 0 then .ok []
  else
    match buildAll nfkc lower lattice input lex
      (subset ||| READING_FORM ||| SURFACE) 0 lattice.boundary_count
      (List.replicate lattice.boundary_count []) [] with
    | .error e => .error e
    | .ok r =>
      .ok (searcherRun
        (mkSearchEnv conn (strBytes (normalize_for_matching nfkc lower reading))
          (lattice.boundary_count - 1) max_results (max min_tokens 1) r) fuel)

/-! ### Claim C7: trivial inputs return Ok([]) -/

/-- C7: `enumerate_reading_candidates` returns `Ok` with an empty vector —
never an error — whenever `max_results` is 0, or the target reading
normalizes to the empty string, or the lattice has zero boundaries; the
result does not depend on the lexicon (no lookup is performed), which the
universal quantification over `lex` expresses. -/
theorem c7_trivial_inputs_ok_empty (nfkc : String → String)
    (lower : Char → List Char) (lattice : Lattice) (input : Nat → Nat → String)
    (lex : Nat → WordId → Except SudachiError WordInfo) (conn : Conn)
    (subset : Nat) (reading : String) (max_results min_tokens fuel : Nat)
    (h : max_results = 0 ∨ normalize_for_matching nfkc lower reading = "" ∨
      lattice.boundary_count = 0) :
    enumerate_reading_candidates nfkc lower lattice input lex conn subset reading
      max_results min_tokens fuel = .ok [] := by
  unfold enumerate_reading_candidates
  rcases h with h | h | h
  · simp [h]
  · by_cases hk : max_results = 0
    · simp [hk]
    · simp [hk, h]
  · by_cases hk : max_results = 0
    · simp [hk]
    · by_cases hn : normalize_for_matching nfkc lower reading = ""
      · simp [hk, hn]
      · simp [hk, hn, h]

/-- C7 witness: `max_results = 0` with an always-failing lexicon still
returns `Ok []`. -/
theorem c7_witness :
    enumerate_reading_candidates id (fun c => [c]) Lattice.default
      (fun _ _ => "") (fun _ _ => .error (.lexiconFailure 0)) (fun _ _ => 0) 0
      "a" 0 1 5 = .ok [] :=
  c7_trivial_inputs_ok_empty id (fun c => [c]) Lattice.default (fun _ _ => "")
    (fun _ _ => .error (.lexiconFailure 0)) (fun _ _ => 0) 0 "a" 0 1 5
    (Or.inl rfl)

/-! ### Claim C8: reading normalization -/

/-- Modelled from the spec (section 4.3), for comparison with the source:
the hiragana-to-katakana codepoint shift as the spec words it. -/
def specHiraToKata (c : Char) : Char :=
  if (0x3041 ≤ c.toNat ∧ c.toNat ≤ 0x3096) ∨ (0x309d ≤ c.toNat ∧ c.toNat ≤ 0x309f) then
    Char.ofNat (c.toNat + 0x60)
  else c

/-- Modelled from the spec (section 4.3), for comparison with the source:
NFKC, then full per-codepoint lowercasing, then the hiragana shift. -/
def specNormalize (nfkc : String → String) (lower : Char → List Char)
    (text : String) : String :=
  String.mk (((nfkc text).data.flatMap lower).map specHiraToKata)

theorem hira_to_kata_eq_spec (c : Char) : hira_to_kata c = specHiraToKata c := by
  unfold hira_to_kata specHiraToKata
  by_cases h : (0x3041 ≤ c.toNat ∧ c.toNat ≤ 0x3096) ∨
      (0x309d ≤ c.toNat ∧ c.toNat ≤ 0x309f)
  · have hvalid : (c.toNat + 0x60).isValidChar := by
      left
      omega
    rw [if_pos h, if_pos h, if_pos hvalid]
  · rw [if_neg h, if_neg h]

theorem mem_dedupAux {x : String} :
    ∀ (l : List String) (seen : List String), x ∈ dedupAux seen l → x ∈ l := by
  intro l
  induction l with
  | nil => intro seen hx; simp [dedupAux] at hx
  | cons a as ih =>
    intro seen hx
    rw [dedupAux] at hx
    by_cases hc : seen.contains a = true
    · rw [if_pos hc] at hx
      exact List.mem_cons.2 (Or.inr (ih _ hx))
    · rw [if_neg hc] at hx
      rcases List.mem_cons.1 hx with h | h
      · exact List.mem_cons.2 (Or.inl h)
      · exact List.mem_cons.2 (Or.inr (ih _ h))

theorem mem_dedupFirst {x : String} (l : List String) :
    x ∈ dedupFirst l → x ∈ l :=
  mem_dedupAux l []

/-- C8: the normalization applied to the target and to the per-token match
variants is NFKC, then full per-codepoint lowercasing, then the shift of
every codepoint in [U+3041, U+3096] or [U+309D, U+309F] by +0x60 with all
other codepoints unchanged; every match variant is that same normalization
of the token's reading form or surface, so the same string normalizes
identically on both sides of the prefix match. -/
theorem c8_normalization_pipeline (nfkc : String → String)
    (lower : Char → List Char) :
    (∀ s, normalize_for_matching nfkc lower s = specNormalize nfkc lower s) ∧
      (∀ c, hira_to_kata c =
        if (0x3041 ≤ c.toNat ∧ c.toNat ≤ 0x3096) ∨
            (0x309d ≤ c.toNat ∧ c.toNat ≤ 0x309f) then
          Char.ofNat (c.toNat + 0x60)
        else c) ∧
      (∀ w : WordInfo, (build_match_variants nfkc lower w).all
        (fun v => v == normalize_for_matching nfkc lower w.reading_form ||
          v == normalize_for_matching nfkc lower w.surface) = true) := by
  refine ⟨?_, hira_to_kata_eq_spec, ?_⟩
  · intro s
    unfold normalize_for_matching specNormalize
    show String.mk (((nfkc s).data.flatMap lower).map hira_to_kata) = _
    rw [List.map_congr_left (fun c _ => hira_to_kata_eq_spec c)]
  · intro w
    rw [List.all_eq_true]
    intro v hv
    have hv1 := mem_dedupFirst _ hv
    have hv2 := (List.mem_filter.1 hv1).1
    obtain ⟨raw, hraw, hn⟩ := List.mem_map.1 hv2
    rw [Bool.or_eq_true, beq_iff_eq, beq_iff_eq]
    by_cases hr : w.reading_form = ""
    · rw [if_pos hr] at hraw
      right
      rw [← hn]
      congr 1
      simpa using hraw
    · rw [if_neg hr] at hraw
      rcases List.mem_cons.1 hraw with h | h
      · left; rw [← hn, h]
      · right
        rw [← hn]
        congr 1
        simpa using h

/-! ### Claims C6/C3: derivations of the searcher -/

/-- A chain of admissible transitions through the search graph: `PathTo s
refs s'` means the node references `refs` lead from state `s` to state
`s'`, stepping only from non-final boundaries (as `dfs` does). -/
inductive PathTo (env : SearchEnv) : SearchState → List NodeRef → SearchState → Prop
  | nil (s : SearchState) : PathTo env s [] s
  | cons {s s' s'' : SearchState} {ref : NodeRef} {rest : List NodeRef} :
      s.boundary ≠ env.end_boundary →
      (∃ step, (step, ref, s') ∈ transitionsOf env s) →
      PathTo env s' rest s'' →
      PathTo env s (ref :: rest) s''

/-- An accepted derivation: a transition chain from the start state that
consumes the whole normalized reading and ends at the final boundary. -/
def AcceptedPath (env : SearchEnv) (refs : List NodeRef) : Prop :=
  ∃ s', PathTo env ⟨0, 0, 0⟩ refs s' ∧ s'.boundary = env.end_boundary ∧
    s'.reading_offset = env.reading.length

/-- Soundness invariant of the result buffer: every retained result is an
accepted derivation with at least `min_tokens` tokens. -/
def TokOK (env : SearchEnv) (r : ReadingCandidatePath) : Prop :=
  ∃ refs, AcceptedPath env refs ∧ env.min_tokens ≤ refs.length ∧
    r.tokens = refs.map (fun ref => (metaAt env ref).as_candidate_token)

theorem pathTo_snoc {env : SearchEnv} {s s' s'' : SearchState} {refs : List NodeRef}
    {ref : NodeRef} (h : PathTo env s refs s') (hne : s'.boundary ≠ env.end_boundary)
    (hstep : ∃ step, (step, ref, s'') ∈ transitionsOf env s') :
    PathTo env s (refs ++ [ref]) s'' := by
  induction h with
  | nil t => exact PathTo.cons hne hstep (PathTo.nil _)
  | cons hne0 hstep0 _ ih => exact PathTo.cons hne0 hstep0 (ih hne hstep)

theorem record_result_pred {env : SearchEnv} {st : SearcherSt} {total : Int}
    {P : ReadingCandidatePath → Prop} (hres : ∀ r ∈ st.results, P r)
    (hnew : P ⟨total, st.path.map (fun ref => (metaAt env ref).as_candidate_token)⟩) :
    ∀ r ∈ (record_result env st total).results, P r := by
  unfold record_result
  split
  · intro r hr
    rcases List.mem_append.1 hr with h | h
    · exact hres r h
    · rw [List.mem_singleton.1 h]
      exact hnew
  · split
    · exact hres
    · split
      · intro r hr
        rcases List.mem_or_eq_of_mem_set hr with h | h
        · exact hres r h
        · rw [h]; exact hnew
      · exact hres

theorem record_result_path (env : SearchEnv) (st : SearcherSt) (total : Int) :
    (record_result env st total).path = st.path := by
  unfold record_result
  split
  · rfl
  · split
    · rfl
    · split <;> rfl

theorem mem_dfsCollect {env : SearchEnv} {f : Nat} {b : Int} :
    ∀ {trans : List (Int × NodeRef × SearchState)}
      {c : List (SearchState × Option Int)} {t : Int × Int × NodeRef × SearchState},
      t ∈ (dfsCollect env f b trans c).1 → (t.2.1, t.2.2.1, t.2.2.2) ∈ trans := by
  intro trans
  induction trans with
  | nil => intro c t ht; simp [dfsCollect] at ht
  | cons hd rest ih =>
    intro c t ht
    rw [dfsCollect] at ht
    rcases hmc : (minAddCost env f hd.2.2 c).1 with _ | remv <;> rw [hmc] at ht
    · exact List.mem_cons.2 (Or.inr (ih ht))
    · rcases List.mem_cons.1 ht with h | h
      · rw [h]
        simp
      · exact List.mem_cons.2 (Or.inr (ih h))

theorem mem_sortTrans {l : List (Int × Int × NodeRef × SearchState)}
    {t : Int × Int × NodeRef × SearchState} (h : t ∈ sortTrans l) : t ∈ l :=
  (List.perm_insertionSort _ l).mem_iff.1 h

/-- The loop part of the soundness invariant, assuming the invariant for
`dfs` at the same fuel. -/
theorem dfsLoop_sound_of (env : SearchEnv) (fuel : Nat)
    (hdfs : ∀ (state : SearchState) (base : Int) (st : SearcherSt),
      (∀ r ∈ st.results, TokOK env r) →
      PathTo env ⟨0, 0, 0⟩ st.path state →
      (∀ r ∈ (dfs env fuel state base st).results, TokOK env r) ∧
        (dfs env fuel state base st).path = st.path) :
    ∀ (state : SearchState) (base : Int)
      (trans : List (Int × Int × NodeRef × SearchState)) (st : SearcherSt),
      (∀ r ∈ st.results, TokOK env r) →
      PathTo env ⟨0, 0, 0⟩ st.path state →
      state.boundary ≠ env.end_boundary →
      (∀ t ∈ trans, (t.2.1, t.2.2.1, t.2.2.2) ∈ transitionsOf env state) →
      (∀ r ∈ (dfsLoop env (dfs env fuel) base trans st).results, TokOK env r) ∧
        (dfsLoop env (dfs env fuel) base trans st).path = st.path := by
  intro state base trans
  induction trans with
  | nil =>
    intro st hres hpath hne htrans
    rw [dfsLoop]
    exact ⟨hres, rfl⟩
  | cons t rest ihRest =>
    intro st hres hpath hne htrans
    rw [dfsLoop]
    by_cases hpr : prunedBy (worstKept env st) t.1
    · rw [if_pos hpr]
      exact ihRest st hres hpath hne
        (fun u hu => htrans u (List.mem_cons.2 (Or.inr hu)))
    · rw [if_neg hpr]
      have hpath2 : PathTo env ⟨0, 0, 0⟩ (st.path ++ [t.2.2.1]) t.2.2.2 :=
        pathTo_snoc hpath hne ⟨t.2.1, htrans t (List.mem_cons_self t rest)⟩
      obtain ⟨hcres, hcpath⟩ := hdfs t.2.2.2 (base + t.2.1)
        ⟨st.path ++ [t.2.2.1], st.results, st.min_cost_cache⟩ hres hpath2
      rw [hcpath, List.dropLast_concat]
      exact ihRest _ hcres hpath hne
        (fun u hu => htrans u (List.mem_cons.2 (Or.inr hu)))

/-- Soundness of the DFS: the result buffer only ever holds accepted
derivations with at least `min_tokens` tokens, and `dfs` restores its
input path. -/
theorem dfs_sound (env : SearchEnv) : ∀ fuel : Nat,
    ∀ (state : SearchState) (base : Int) (st : SearcherSt),
      (∀ r ∈ st.results, TokOK env r) →
      PathTo env ⟨0, 0, 0⟩ st.path state →
      (∀ r ∈ (dfs env fuel state base st).results, TokOK env r) ∧
        (dfs env fuel state base st).path = st.path := by
  intro fuel
  induction fuel with
  | zero =>
    intro state base st hres hpath
    rw [dfs]
    exact ⟨hres, rfl⟩
  | succ n ih =>
    intro state base st hres hpath
    rw [dfs]
    rcases hmc : minAddCost env (n + 1) state st.min_cost_cache with ⟨mc1, c2⟩
    cases mc1 with
    | none => exact ⟨hres, rfl⟩
    | some minAdd =>
      dsimp only
      by_cases hpr : prunedBy (worstKept env ⟨st.path, st.results, c2⟩) (base + minAdd)
      · rw [if_pos hpr]
        exact ⟨hres, rfl⟩
      · rw [if_neg hpr]
        by_cases hb : state.boundary = env.end_boundary
        · rw [if_pos hb]
          by_cases hoff : state.reading_offset ≠ env.reading.length
          · rw [if_pos hoff]
            exact ⟨hres, rfl⟩
          · rw [if_neg hoff]
            by_cases hmt : st.path.length < env.min_tokens
            · rw [if_pos hmt]
              exact ⟨hres, rfl⟩
            · rw [if_neg hmt]
              refine ⟨?_, record_result_path env _ _⟩
              refine record_result_pred hres ?_
              exact ⟨st.path, ⟨state, hpath, hb, not_not.1 hoff⟩,
                Nat.le_of_not_lt hmt, rfl⟩
        · rw [if_neg hb]
          refine dfsLoop_sound_of env n (fun s2 b2 st2 => ih s2 b2 st2) state base _ _
            hres hpath hb ?_
          intro u hu
          exact mem_dfsCollect (mem_sortTrans hu)

/-- Soundness of the whole searcher run. -/
theorem searcherRun_sound (env : SearchEnv) (fuel : Nat) :
    ∀ r ∈ searcherRun env fuel, TokOK env r := by
  intro r hr
  unfold searcherRun at hr
  have h1 : r ∈ sortByCost (dfs env fuel ⟨0, 0, 0⟩ 0 ⟨[], [], []⟩).results :=
    List.take_subset _ _ hr
  have h2 : r ∈ (dfs env fuel ⟨0, 0, 0⟩ 0 ⟨[], [], []⟩).results :=
    (List.perm_insertionSort _ _).mem_iff.1 h1
  exact (dfs_sound env fuel ⟨0, 0, 0⟩ 0 ⟨[], [], []⟩ (by simp) (PathTo.nil _)).1 r h2

/-! ### Claim C6: the min_tokens filter -/

/-- C6: for every call to `enumerate_reading_candidates` with `min_tokens
= M`: when `M > 1` every returned path has at least `M` tokens; when `M`
exceeds the token count of every accepted derivation matching the
normalized reading, the result is the empty list; and `M = 0` behaves
exactly like `M = 1`. -/
theorem c6_min_tokens_filter (nfkc : String → String) (lower : Char → List Char)
    (lattice : Lattice) (input : Nat → Nat → String)
    (lex : Nat → WordId → Except SudachiError WordInfo) (conn : Conn)
    (subset : Nat) (reading : String) (K M fuel : Nat) :
    (∀ paths, enumerate_reading_candidates nfkc lower lattice input lex conn
        subset reading K M fuel = .ok paths → 1 < M →
      ∀ r ∈ paths, M ≤ r.tokens.length) ∧
      (∀ rr, buildAll nfkc lower lattice input lex
          (subset ||| READING_FORM ||| SURFACE) 0 lattice.boundary_count
          (List.replicate lattice.boundary_count []) [] = .ok rr →
        (∀ refs, AcceptedPath
            (mkSearchEnv conn
              (strBytes (normalize_for_matching nfkc lower reading))
              (lattice.boundary_count - 1) K (max M 1) rr) refs →
          refs.length < M) →
        enumerate_reading_candidates nfkc lower lattice input lex conn subset
          reading K M fuel = .ok []) ∧
      enumerate_reading_candidates nfkc lower lattice input lex conn subset
          reading K 0 fuel =
        enumerate_reading_candidates nfkc lower lattice input lex conn subset
          reading K 1 fuel := by
  refine ⟨?_, ?_, rfl⟩
  · intro paths hok hM r hr
    unfold enumerate_reading_candidates at hok
    by_cases hk : K = 0
    · rw [if_pos hk] at hok
      simp only [Except.ok.injEq] at hok
      subst hok
      simp at hr
    · rw [if_neg hk] at hok
      by_cases hn : normalize_for_matching nfkc lower reading = ""
      · rw [if_pos hn] at hok
        simp only [Except.ok.injEq] at hok
        subst hok
        simp at hr
      · rw [if_neg hn] at hok
        by_cases hbc : lattice.boundary_count = 0
        · rw [if_pos hbc] at hok
          simp only [Except.ok.injEq] at hok
          subst hok
          simp at hr
        · rw [if_neg hbc] at hok
          rcases hb : buildAll nfkc lower lattice input lex
              (subset ||| READING_FORM ||| SURFACE) 0 lattice.boundary_count
              (List.replicate lattice.boundary_count []) [] with e | rr <;>
            rw [hb] at hok
          · exact absurd hok (by simp)
          · simp only [Except.ok.injEq] at hok
            subst hok
            obtain ⟨refs, _, hlen, htok⟩ := searcherRun_sound _ _ r hr
            rw [htok, List.length_map]
            have hmx : M ≤ max M 1 := Nat.le_max_left M 1
            have hmt : (mkSearchEnv conn
                (strBytes (normalize_for_matching nfkc lower reading))
                (lattice.boundary_count - 1) K (max M 1) rr).min_tokens =
              max M 1 := rfl
            rw [hmt] at hlen
            omega
  · intro rr hbuild hmax
    unfold enumerate_reading_candidates
    by_cases hk : K = 0
    · rw [if_pos hk]
    · rw [if_neg hk]
      by_cases hn : normalize_for_matching nfkc lower reading = ""
      · rw [if_pos hn]
      · rw [if_neg hn]
        by_cases hbc : lattice.boundary_count = 0
        · rw [if_pos hbc]
        · rw [if_neg hbc, hbuild]
          dsimp only
          congr 1
          rw [List.eq_nil_iff_forall_not_mem]
          intro r hr
          obtain ⟨refs, hacc, hlen, _⟩ := searcherRun_sound _ _ r hr
          have hlt := hmax refs hacc
          have hmx : M ≤ max M 1 := Nat.le_max_left M 1
          have hmt : (mkSearchEnv conn
              (strBytes (normalize_for_matching nfkc lower reading))
              (lattice.boundary_count - 1) K (max M 1) rr).min_tokens =
            max M 1 := rfl
          rw [hmt] at hlen
          omega

/-- C6 witness: a one-boundary lattice with no nodes has no accepted
derivations at all, so `min_tokens = 2` returns the empty list. -/
theorem c6_witness :
    enumerate_reading_candidates id (fun c => [c]) (Lattice.default.reset 0)
      (fun _ _ => "") (fun _ _ => .ok ⟨"", "", 0⟩) (fun _ _ => 0) 0 "a" 16 2 3 =
      .ok [] := by
  refine (c6_min_tokens_filter id (fun c => [c]) (Lattice.default.reset 0)
    (fun _ _ => "") (fun _ _ => .ok ⟨"", "", 0⟩) (fun _ _ => 0) 0 "a" 16 2
    3).2.1 ([[]], [[]]) rfl ?_
  intro refs hacc
  obtain ⟨s', hp, hb, ho⟩ := hacc
  cases hp with
  | nil => exact absurd ho (by decide)
  | cons hne _ _ => exact absurd (by decide) hne

/-! ### Claim C3: sortedness and result count -/

/-- Acceptance is reachable from a state: some transition chain consumes
the rest of the normalized reading and ends at the final boundary. -/
def ReachAccept (env : SearchEnv) (s : SearchState) : Prop :=
  ∃ refs s', PathTo env s refs s' ∧ s'.boundary = env.end_boundary ∧
    s'.reading_offset = env.reading.length

/-- Decidable well-formedness of the precomputed node tables: every
registered node strictly advances its begin boundary and ends within the
lattice (the spec's `begin < end ≤ N` node invariant, section 3). -/
def EnvWFnodes (env : SearchEnv) : Prop :=
  ∀ b ∈ List.range env.nodes_by_begin.length, ∀ ref ∈ env.nodes_by_begin.getD b [],
    b < (metaAt env ref).node.end_ ∧ (metaAt env ref).node.end_ ≤ env.end_boundary

theorem mem_transitionsOf {env : SearchEnv} {s : SearchState}
    {t : Int × NodeRef × SearchState} (h : t ∈ transitionsOf env s) :
    t.2.1 ∈ env.nodes_by_begin.getD s.boundary [] ∧
      t.2.2.boundary = (metaAt env t.2.1).node.end_ := by
  unfold transitionsOf at h
  obtain ⟨ref, href, hmem⟩ := List.mem_flatMap.1 h
  obtain ⟨v, _, hfm⟩ := List.mem_filterMap.1 hmem
  dsimp only at hfm
  split_ifs at hfm with h1 h2 h3
  injection hfm with hfm
  rw [← hfm]
  exact ⟨href, rfl⟩

/-- Node-table well-formedness implies that every transition strictly
advances the boundary and stays within the final boundary. -/
theorem envWF_trans {env : SearchEnv} (hwf : EnvWFnodes env) :
    ∀ (s : SearchState) (t : Int × NodeRef × SearchState),
      t ∈ transitionsOf env s →
      s.boundary < t.2.2.boundary ∧ t.2.2.boundary ≤ env.end_boundary := by
  intro s t ht
  obtain ⟨href, hb⟩ := mem_transitionsOf ht
  by_cases hlen : s.boundary < env.nodes_by_begin.length
  · rw [hb]
    exact hwf s.boundary (List.mem_range.2 hlen) t.2.1 href
  · rw [List.getD_eq_default _ _ (by omega)] at href
    simp at href

theorem reachAccept_end {env : SearchEnv} {s : SearchState}
    (hb : s.boundary = env.end_boundary) :
    ReachAccept env s ↔ s.reading_offset = env.reading.length := by
  constructor
  · rintro ⟨refs, s', hp, _, ho⟩
    cases hp with
    | nil => exact ho
    | cons hne _ _ => exact absurd hb hne
  · intro ho
    exact ⟨[], s, PathTo.nil s, hb, ho⟩

theorem reachAccept_step {env : SearchEnv} {s : SearchState}
    (hb : s.boundary ≠ env.end_boundary) :
    ReachAccept env s ↔ ∃ t ∈ transitionsOf env s, ReachAccept env t.2.2 := by
  constructor
  · rintro ⟨refs, s', hp, hb', ho⟩
    cases hp with
    | nil => exact absurd hb' hb
    | @cons _ s1 _ ref rest hne hstep hrest =>
      obtain ⟨step, hmem⟩ := hstep
      exact ⟨(step, ref, s1), hmem, rest, s', hrest, hb', ho⟩
  · rintro ⟨t, hmem, refs, s', hp, hb', ho⟩
    exact ⟨t.2.1 :: refs, s', PathTo.cons hb ⟨t.1, by simpa using hmem⟩ hp, hb', ho⟩

theorem not_reachAccept_beyond {env : SearchEnv}
    (hwf : ∀ (s : SearchState) (t : Int × NodeRef × SearchState),
      t ∈ transitionsOf env s →
      s.boundary < t.2.2.boundary ∧ t.2.2.boundary ≤ env.end_boundary)
    {s : SearchState} (h : env.end_boundary < s.boundary) :
    ¬ReachAccept env s := by
  rintro ⟨refs, s', hp, hb', _⟩
  cases hp with
  | nil => omega
  | @cons _ s1 _ ref rest hne hstep _ =>
    obtain ⟨step, hmem⟩ := hstep
    have := hwf s (step, ref, s1) hmem
    simp only at this
    omega

/-- Every cache entry's presence-of-a-value agrees with reachability. -/
def CacheOK (env : SearchEnv) (c : List (SearchState × Option Int)) : Prop :=
  ∀ s v, cacheLookup c s = some v → (v.isSome ↔ ReachAccept env s)

theorem cacheOK_nil (env : SearchEnv) : CacheOK env [] := by
  intro s v h
  simp [cacheLookup] at h

theorem cacheOK_cons {env : SearchEnv} {c : List (SearchState × Option Int)}
    {s : SearchState} {r : Option Int} (hc : CacheOK env c)
    (hr : r.isSome ↔ ReachAccept env s) : CacheOK env ((s, r) :: c) := by
  intro s2 v h
  rw [cacheLookup] at h
  split at h
  · rename_i heq
    rw [Option.some_inj] at h
    subst h
    rw [← heq]
    exact hr
  · exact hc s2 v h

/-- Correctness of `minAddList`'s reachability signal, given that of
`minAddCost` at the same fuel. -/
theorem minAddList_correct_of (env : SearchEnv) (fuel : Nat)
    (hfirst : ∀ (s : SearchState) (c : List (SearchState × Option Int)),
      CacheOK env c → env.end_boundary + 1 - s.boundary ≤ fuel →
      ((minAddCost env fuel s c).1.isSome ↔ ReachAccept env s) ∧
        CacheOK env (minAddCost env fuel s c).2) :
    ∀ (trans : List (Int × NodeRef × SearchState)) (best : Option Int)
      (c : List (SearchState × Option Int)), CacheOK env c →
      (∀ t ∈ trans, env.end_boundary + 1 - t.2.2.boundary ≤ fuel) →
      (((minAddList (minAddCost env fuel) trans best c).1.isSome ↔
          (best.isSome ∨ ∃ t ∈ trans, ReachAccept env t.2.2)) ∧
        CacheOK env (minAddList (minAddCost env fuel) trans best c).2) := by
  intro trans
  induction trans with
  | nil =>
    intro best c hc _
    rw [minAddList]
    exact ⟨by simp, hc⟩
  | cons t rest ih =>
    intro best c hc htr
    rw [minAddList]
    obtain ⟨hiff, hcok⟩ := hfirst t.2.2 c hc (htr t (List.mem_cons_self t rest))
    rcases hr : (minAddCost env fuel t.2.2 c).1 with _ | remv <;>
      rw [hr] at hiff <;> dsimp only
    · have hnr : ¬ReachAccept env t.2.2 := fun h => by simpa using hiff.2 h
      obtain ⟨hiff2, hcok2⟩ := ih best (minAddCost env fuel t.2.2 c).2 hcok
        (fun u hu => htr u (List.mem_cons.2 (Or.inr hu)))
      refine ⟨?_, hcok2⟩
      rw [hiff2]
      simp only [List.mem_cons]
      constructor
      · rintro (hb | ⟨u, hu, hru⟩)
        · exact Or.inl hb
        · exact Or.inr ⟨u, Or.inr hu, hru⟩
      · rintro (hb | ⟨u, hu | hu, hru⟩)
        · exact Or.inl hb
        · rw [hu] at hru
          exact absurd hru hnr
        · exact Or.inr ⟨u, hu, hru⟩
    · have hre : ReachAccept env t.2.2 := hiff.1 (by simp)
      obtain ⟨hiff2, hcok2⟩ := ih
        (match best with
          | none => some (t.1 + remv)
          | some cur => some (min cur (t.1 + remv)))
        (minAddCost env fuel t.2.2 c).2 hcok
        (fun u hu => htr u (List.mem_cons.2 (Or.inr hu)))
      refine ⟨?_, hcok2⟩
      rw [hiff2]
      constructor
      · intro _
        exact Or.inr ⟨t, List.mem_cons_self t rest, hre⟩
      · intro _
        left
        cases best <;> rfl

/-- Correctness of the memoized heuristic's reachability signal: with
enough fuel and a valid cache, `min_additional_cost_from_state` returns
`Some` exactly when acceptance is reachable, and keeps the cache valid. -/
theorem minAdd_correct (env : SearchEnv)
    (hwf : ∀ (s : SearchState) (t : Int × NodeRef × SearchState),
      t ∈ transitionsOf env s →
      s.boundary < t.2.2.boundary ∧ t.2.2.boundary ≤ env.end_boundary) :
    ∀ (fuel : Nat) (s : SearchState) (c : List (SearchState × Option Int)),
      CacheOK env c → env.end_boundary + 1 - s.boundary ≤ fuel →
      ((minAddCost env fuel s c).1.isSome ↔ ReachAccept env s) ∧
        CacheOK env (minAddCost env fuel s c).2 := by
  intro fuel
  induction fuel with
  | zero =>
    intro s c hc hb
    rw [minAddCost]
    refine ⟨?_, hc⟩
    constructor
    · intro h
      simp at h
    · intro h
      exact absurd h (not_reachAccept_beyond hwf (by omega))
  | succ n ih =>
    intro s c hc hb
    rw [minAddCost]
    rcases hl : cacheLookup c s with _ | v <;> dsimp only
    · by_cases hend : s.boundary = env.end_boundary
      · rw [if_pos hend]
        dsimp only
        have hiff : (if s.reading_offset = env.reading.length then
            some (env.conn s.prev_right_id 0) else none).isSome ↔
            ReachAccept env s := by
          rw [reachAccept_end hend]
          by_cases ho : s.reading_offset = env.reading.length
          · simp [ho]
          · simp [ho]
        exact ⟨hiff, cacheOK_cons hc hiff⟩
      · rw [if_neg hend]
        dsimp only
        obtain ⟨hiff, hcok⟩ := minAddList_correct_of env n ih
          (transitionsOf env s) none c hc
          (fun t ht => by have := hwf s t ht; omega)
        have hreach : (minAddList (minAddCost env n) (transitionsOf env s) none c).1.isSome ↔
            ReachAccept env s := by
          rw [hiff, reachAccept_step hend]
          simp
        exact ⟨hreach, cacheOK_cons hcok hreach⟩
    · exact ⟨hc s v hl, hc⟩

/-- The number of accepted derivations (transition chains with their
chosen match variants) from a state, counted with the same transition
relation the searcher uses; `k` is the number of tokens already on the
path, checked against `min_tokens` at acceptance. -/
def countD (env : SearchEnv) : Nat → SearchState → Nat → Nat
  | 0, _, _ => 0
  | Nat.succ fuel, s, k =>
    if s.boundary = env.end_boundary then
      if s.reading_offset = env.reading.length ∧ env.min_tokens ≤ k then 1 else 0
    else ((transitionsOf env s).map (fun t => countD env fuel t.2.2 (k + 1))).sum

theorem countD_eq_zero_of_not_reach {env : SearchEnv} :
    ∀ (fuel : Nat) (s : SearchState) (k : Nat), ¬ReachAccept env s →
      countD env fuel s k = 0 := by
  intro fuel
  induction fuel with
  | zero => intro s k _; rfl
  | succ n ih =>
    intro s k hnr
    rw [countD]
    by_cases hend : s.boundary = env.end_boundary
    · rw [if_pos hend, if_neg]
      rintro ⟨ho, _⟩
      exact hnr ((reachAccept_end hend).2 ho)
    · rw [if_neg hend]
      refine List.sum_eq_zero ?_
      intro x hx
      obtain ⟨t, ht, hxe⟩ := List.mem_map.1 hx
      rw [← hxe]
      refine ih t.2.2 (k + 1) ?_
      intro hr
      exact hnr ((reachAccept_step hend).2 ⟨t, ht, hr⟩)

theorem record_result_length (env : SearchEnv) (st : SearcherSt) (total : Int) :
    (record_result env st total).results.length =
      if st.results.length < env.max_results then st.results.length + 1
      else st.results.length := by
  unfold record_result
  split
  · simp
  · dsimp only
    split
    · rfl
    · split
      · simp
      · rfl

theorem record_result_cache (env : SearchEnv) (st : SearcherSt) (total : Int) :
    (record_result env st total).min_cost_cache = st.min_cost_cache := by
  unfold record_result
  split
  · rfl
  · split
    · rfl
    · split <;> rfl

theorem worstKept_of_pruned {env : SearchEnv} {st : SearcherSt} {e : Int}
    (h : prunedBy (worstKept env st) e = true) :
    env.max_results ≤ st.results.length := by
  by_cases hl : st.results.length < env.max_results
  · rw [worstKept, if_pos hl] at h
    simp [prunedBy] at h
  · omega

/-- `dfsLoop` restores the path, given that `dfs` does at the same fuel. -/
theorem dfsLoop_path_of (env : SearchEnv) (fuel : Nat)
    (hdfs : ∀ (s : SearchState) (b : Int) (st : SearcherSt),
      (dfs env fuel s b st).path = st.path) :
    ∀ (b : Int) (trans : List (Int × Int × NodeRef × SearchState))
      (st : SearcherSt), (dfsLoop env (dfs env fuel) b trans st).path = st.path := by
  intro b trans
  induction trans with
  | nil => intro st; rw [dfsLoop]
  | cons t rest ih =>
    intro st
    rw [dfsLoop]
    by_cases hpr : prunedBy (worstKept env st) t.1
    · rw [if_pos hpr]
      exact ih st
    · rw [if_neg hpr]
      rw [ih]
      show (dfs env fuel t.2.2.2 (b + t.2.1) _).path.dropLast = st.path
      rw [hdfs]
      exact List.dropLast_concat

/-- `dfs` restores the path it was given. -/
theorem dfs_path (env : SearchEnv) :
    ∀ (fuel : Nat) (s : SearchState) (b : Int) (st : SearcherSt),
      (dfs env fuel s b st).path = st.path := by
  intro fuel
  induction fuel with
  | zero => intro s b st; rw [dfs]
  | succ n ih =>
    intro s b st
    rw [dfs]
    rcases hmc : minAddCost env (n + 1) s st.min_cost_cache with ⟨mc1, c2⟩
    cases mc1 with
    | none => rfl
    | some minAdd =>
      dsimp only
      by_cases hpr : prunedBy (worstKept env ⟨st.path, st.results, c2⟩) (b + minAdd)
      · rw [if_pos hpr]
      · rw [if_neg hpr]
        by_cases hend : s.boundary = env.end_boundary
        · rw [if_pos hend]
          by_cases hoff : s.reading_offset ≠ env.reading.length
          · rw [if_pos hoff]
          · rw [if_neg hoff]
            by_cases hmt : st.path.length < env.min_tokens
            · rw [if_pos hmt]
            · rw [if_neg hmt]
              exact record_result_path env _ _
        · rw [if_neg hend]
          exact dfsLoop_path_of env n ih _ _ _

/-- Result-buffer length bounds: `dfsLoop` never shrinks the buffer and
never grows it beyond capacity, given the same for `dfs`. -/
theorem dfsLoop_len_of (env : SearchEnv) (fuel : Nat)
    (hdfs : ∀ (s : SearchState) (b : Int) (st : SearcherSt),
      st.results.length ≤ (dfs env fuel s b st).results.length ∧
        (dfs env fuel s b st).results.length ≤
          max st.results.length env.max_results) :
    ∀ (b : Int) (trans : List (Int × Int × NodeRef × SearchState))
      (st : SearcherSt),
      st.results.length ≤ (dfsLoop env (dfs env fuel) b trans st).results.length ∧
        (dfsLoop env (dfs env fuel) b trans st).results.length ≤
          max st.results.length env.max_results := by
  intro b trans
  induction trans with
  | nil => intro st; rw [dfsLoop]; omega
  | cons t rest ih =>
    intro st
    rw [dfsLoop]
    by_cases hpr : prunedBy (worstKept env st) t.1
    · rw [if_pos hpr]
      exact ih st
    · rw [if_neg hpr]
      have h1 := hdfs t.2.2.2 (b + t.2.1)
        ⟨st.path ++ [t.2.2.1], st.results, st.min_cost_cache⟩
      have h2 := ih ⟨(dfs env fuel t.2.2.2 (b + t.2.1)
          ⟨st.path ++ [t.2.2.1], st.results, st.min_cost_cache⟩).path.dropLast,
        (dfs env fuel t.2.2.2 (b + t.2.1)
          ⟨st.path ++ [t.2.2.1], st.results, st.min_cost_cache⟩).results,
        (dfs env fuel t.2.2.2 (b + t.2.1)
          ⟨st.path ++ [t.2.2.1], st.results, st.min_cost_cache⟩).min_cost_cache⟩
      simp only at h1 h2
      omega

/-- Result-buffer length bounds for `dfs`. -/
theorem dfs_len (env : SearchEnv) :
    ∀ (fuel : Nat) (s : SearchState) (b : Int) (st : SearcherSt),
      st.results.length ≤ (dfs env fuel s b st).results.length ∧
        (dfs env fuel s b st).results.length ≤
          max st.results.length env.max_results := by
  intro fuel
  induction fuel with
  | zero => intro s b st; rw [dfs]; omega
  | succ n ih =>
    intro s b st
    rw [dfs]
    rcases hmc : minAddCost env (n + 1) s st.min_cost_cache with ⟨mc1, c2⟩
    cases mc1 with
    | none => simp
    | some minAdd =>
      dsimp only
      by_cases hpr : prunedBy (worstKept env ⟨st.path, st.results, c2⟩) (b + minAdd)
      · rw [if_pos hpr]
        simp
      · rw [if_neg hpr]
        by_cases hend : s.boundary = env.end_boundary
        · rw [if_pos hend]
          by_cases hoff : s.reading_offset ≠ env.reading.length
          · rw [if_pos hoff]
            simp
          · rw [if_neg hoff]
            by_cases hmt : st.path.length < env.min_tokens
            · rw [if_pos hmt]
              simp
            · rw [if_neg hmt]
              have := record_result_length env ⟨st.path, st.results, c2⟩
                (b + env.conn s.prev_right_id 0)
              simp only at this
              split at this <;> omega
        · rw [if_neg hend]
          have := dfsLoop_len_of env n ih b
            (sortTrans (dfsCollect env (n + 1) b (transitionsOf env s) c2).1)
            ⟨st.path, st.results,
              (dfsCollect env (n + 1) b (transitionsOf env s) c2).2⟩
          simp only at this
          omega

theorem dfsCollect_sum_le (env : SearchEnv) (fm : Nat) (b : Int)
    (g : SearchState → Nat) :
    ∀ (trans : List (Int × NodeRef × SearchState))
      (c : List (SearchState × Option Int)),
      ((dfsCollect env fm b trans c).1.map (fun u => g u.2.2.2)).sum ≤
        (trans.map (fun t => g t.2.2)).sum := by
  intro trans
  induction trans with
  | nil =>
    intro c
    rw [dfsCollect]
    simp
  | cons t rest ih =>
    intro c
    rw [dfsCollect]
    rcases hr : (minAddCost env fm t.2.2 c).1 with _ | remv <;> (try dsimp only) <;>
      simp only [List.map_cons, List.sum_cons]
    · have := ih (minAddCost env fm t.2.2 c).2
      omega
    · have := ih (minAddCost env fm t.2.2 c).2
      omega

theorem sortTrans_sum (g : Int × Int × NodeRef × SearchState → Nat)
    (l : List (Int × Int × NodeRef × SearchState)) :
    ((sortTrans l).map g).sum = (l.map g).sum :=
  ((List.perm_insertionSort _ l).map g).sum_eq

/-- Upper bound: `dfsLoop` records at most one result per derivation below
its transitions, given the same for `dfs`. -/
theorem dfsLoop_countB_of (env : SearchEnv) (fuel : Nat)
    (hdfs : ∀ (s : SearchState) (b : Int) (st : SearcherSt),
      (dfs env fuel s b st).results.length ≤
        st.results.length + countD env fuel s st.path.length) :
    ∀ (b : Int) (trans : List (Int × Int × NodeRef × SearchState))
      (st : SearcherSt),
      (dfsLoop env (dfs env fuel) b trans st).results.length ≤
        st.results.length +
          (trans.map (fun t => countD env fuel t.2.2.2 (st.path.length + 1))).sum := by
  intro b trans
  induction trans with
  | nil =>
    intro st
    rw [dfsLoop]
    omega
  | cons t rest ih =>
    intro st
    rw [dfsLoop]
    simp only [List.map_cons, List.sum_cons]
    by_cases hpr : prunedBy (worstKept env st) t.1
    · rw [if_pos hpr]
      have := ih st
      omega
    · rw [if_neg hpr]
      have hpath := dfs_path env fuel t.2.2.2 (b + t.2.1)
        ⟨st.path ++ [t.2.2.1], st.results, st.min_cost_cache⟩
      rw [hpath, List.dropLast_concat]
      have h1 := hdfs t.2.2.2 (b + t.2.1)
        ⟨st.path ++ [t.2.2.1], st.results, st.min_cost_cache⟩
      have h2 := ih ⟨st.path,
        (dfs env fuel t.2.2.2 (b + t.2.1)
          ⟨st.path ++ [t.2.2.1], st.results, st.min_cost_cache⟩).results,
        (dfs env fuel t.2.2.2 (b + t.2.1)
          ⟨st.path ++ [t.2.2.1], st.results, st.min_cost_cache⟩).min_cost_cache⟩
      simp only at h1 h2
      simp only [List.length_append, List.length_singleton] at h1
      omega

/-- Upper bound for `dfs`: the result buffer grows by at most the number
of accepted derivations below the current state. -/
theorem dfs_countB (env : SearchEnv) :
    ∀ (fuel : Nat) (s : SearchState) (b : Int) (st : SearcherSt),
      (dfs env fuel s b st).results.length ≤
        st.results.length + countD env fuel s st.path.length := by
  intro fuel
  induction fuel with
  | zero =>
    intro s b st
    rw [dfs]
    omega
  | succ n ih =>
    intro s b st
    rw [dfs]
    rcases hmc : minAddCost env (n + 1) s st.min_cost_cache with ⟨mc1, c2⟩
    cases mc1 with
    | none => simp
    | some minAdd =>
      dsimp only
      by_cases hpr : prunedBy (worstKept env ⟨st.path, st.results, c2⟩) (b + minAdd)
      · rw [if_pos hpr]
        simp
      · rw [if_neg hpr]
        by_cases hend : s.boundary = env.end_boundary
        · rw [if_pos hend]
          by_cases hoff : s.reading_offset ≠ env.reading.length
          · rw [if_pos hoff]
            simp
          · rw [if_neg hoff]
            by_cases hmt : st.path.length < env.min_tokens
            · rw [if_pos hmt]
              simp
            · rw [if_neg hmt]
              have hlen := record_result_length env ⟨st.path, st.results, c2⟩
                (b + env.conn s.prev_right_id 0)
              rw [countD, if_pos hend, if_pos ⟨not_not.1 hoff, Nat.le_of_not_lt hmt⟩]
              simp only at hlen
              split at hlen <;> omega
        · rw [if_neg hend]
          have hloop := dfsLoop_countB_of env n ih b
            (sortTrans (dfsCollect env (n + 1) b (transitionsOf env s) c2).1)
            ⟨st.path, st.results,
              (dfsCollect env (n + 1) b (transitionsOf env s) c2).2⟩
          simp only at hloop
          rw [sortTrans_sum] at hloop
          have hsum := dfsCollect_sum_le env (n + 1) b
            (fun s' => countD env n s' (st.path.length + 1))
            (transitionsOf env s) c2
          rw [countD, if_neg hend]
          omega

/-- With a valid cache, the estimate-collection loop keeps exactly the
reachable transitions, so the derivation-count sum is preserved. -/
theorem dfsCollect_sum_eq (env : SearchEnv)
    (hwf : ∀ (s : SearchState) (t : Int × NodeRef × SearchState),
      t ∈ transitionsOf env s →
      s.boundary < t.2.2.boundary ∧ t.2.2.boundary ≤ env.end_boundary)
    (fm : Nat) (b : Int) (n : Nat) (k : Nat) :
    ∀ (trans : List (Int × NodeRef × SearchState))
      (c : List (SearchState × Option Int)), CacheOK env c →
      (∀ t ∈ trans, env.end_boundary + 1 - t.2.2.boundary ≤ fm) →
      CacheOK env (dfsCollect env fm b trans c).2 ∧
        ((dfsCollect env fm b trans c).1.map (fun u => countD env n u.2.2.2 k)).sum =
          (trans.map (fun t => countD env n t.2.2 k)).sum := by
  intro trans
  induction trans with
  | nil =>
    intro c hc _
    rw [dfsCollect]
    exact ⟨hc, rfl⟩
  | cons t rest ih =>
    intro c hc htr
    rw [dfsCollect]
    obtain ⟨hiff, hcok⟩ := minAdd_correct env hwf fm t.2.2 c hc
      (htr t (List.mem_cons_self t rest))
    obtain ⟨ihc, ihs⟩ := ih (minAddCost env fm t.2.2 c).2 hcok
      (fun u hu => htr u (List.mem_cons.2 (Or.inr hu)))
    rcases hr : (minAddCost env fm t.2.2 c).1 with _ | remv <;> (try dsimp only) <;>
      rw [hr] at hiff
    · have hnr : ¬ReachAccept env t.2.2 := fun h => by simpa using hiff.2 h
      refine ⟨ihc, ?_⟩
      simp only [List.map_cons, List.sum_cons]
      rw [ihs, countD_eq_zero_of_not_reach n t.2.2 k hnr]
      omega
    · refine ⟨ihc, ?_⟩
      simp only [List.map_cons, List.sum_cons]
      rw [ihs]

/-- Lower bound for `dfsLoop`, given the same for `dfs` at equal fuel:
either the buffer is already at capacity, or every derivation below the
transitions is recorded. -/
theorem dfsLoop_countA_of (env : SearchEnv) (fuel : Nat)
    (hdfs : ∀ (s : SearchState) (b : Int) (st : SearcherSt),
      CacheOK env st.min_cost_cache →
      env.end_boundary + 1 - s.boundary ≤ fuel →
      min env.max_results (st.results.length + countD env fuel s st.path.length) ≤
          (dfs env fuel s b st).results.length ∧
        CacheOK env (dfs env fuel s b st).min_cost_cache) :
    ∀ (b : Int) (trans : List (Int × Int × NodeRef × SearchState))
      (st : SearcherSt), CacheOK env st.min_cost_cache →
      (∀ t ∈ trans, env.end_boundary + 1 - t.2.2.2.boundary ≤ fuel) →
      min env.max_results (st.results.length +
          (trans.map (fun t => countD env fuel t.2.2.2 (st.path.length + 1))).sum) ≤
          (dfsLoop env (dfs env fuel) b trans st).results.length ∧
        CacheOK env (dfsLoop env (dfs env fuel) b trans st).min_cost_cache := by
  intro b trans
  induction trans with
  | nil =>
    intro st hc _
    rw [dfsLoop]
    refine ⟨?_, hc⟩
    simp only [List.map_nil, List.sum_nil, Nat.add_zero]
    omega
  | cons t rest ih =>
    intro st hc htr
    rw [dfsLoop]
    simp only [List.map_cons, List.sum_cons]
    by_cases hpr : prunedBy (worstKept env st) t.1
    · rw [if_pos hpr]
      have hK := worstKept_of_pruned hpr
      obtain ⟨_, hcok⟩ := ih st hc (fun u hu => htr u (List.mem_cons.2 (Or.inr hu)))
      refine ⟨?_, hcok⟩
      have hmono := (dfsLoop_len_of env fuel (dfs_len env fuel) b rest st).1
      omega
    · rw [if_neg hpr]
      have hpath := dfs_path env fuel t.2.2.2 (b + t.2.1)
        ⟨st.path ++ [t.2.2.1], st.results, st.min_cost_cache⟩
      rw [hpath, List.dropLast_concat]
      obtain ⟨ha1, hc1⟩ := hdfs t.2.2.2 (b + t.2.1)
        ⟨st.path ++ [t.2.2.1], st.results, st.min_cost_cache⟩ hc
        (htr t (List.mem_cons_self t rest))
      obtain ⟨ha2, hc2⟩ := ih ⟨st.path,
        (dfs env fuel t.2.2.2 (b + t.2.1)
          ⟨st.path ++ [t.2.2.1], st.results, st.min_cost_cache⟩).results,
        (dfs env fuel t.2.2.2 (b + t.2.1)
          ⟨st.path ++ [t.2.2.1], st.results, st.min_cost_cache⟩).min_cost_cache⟩
        hc1 (fun u hu => htr u (List.mem_cons.2 (Or.inr hu)))
      refine ⟨?_, hc2⟩
      simp only at ha1 ha2
      simp only [List.length_append, List.length_singleton] at ha1
      omega

/-- Lower bound for `dfs`: either the buffer reaches capacity, or every
accepted derivation below the state is recorded. -/
theorem dfs_countA (env : SearchEnv)
    (hwf : ∀ (s : SearchState) (t : Int × NodeRef × SearchState),
      t ∈ transitionsOf env s →
      s.boundary < t.2.2.boundary ∧ t.2.2.boundary ≤ env.end_boundary) :
    ∀ (fuel : Nat) (s : SearchState) (b : Int) (st : SearcherSt),
      CacheOK env st.min_cost_cache →
      env.end_boundary + 1 - s.boundary ≤ fuel →
      min env.max_results (st.results.length + countD env fuel s st.path.length) ≤
          (dfs env fuel s b st).results.length ∧
        CacheOK env (dfs env fuel s b st).min_cost_cache := by
  intro fuel
  induction fuel with
  | zero =>
    intro s b st hc _
    rw [dfs, countD]
    exact ⟨by omega, hc⟩
  | succ n ih =>
    intro s b st hc hb
    rw [dfs]
    have hcor := minAdd_correct env hwf (n + 1) s st.min_cost_cache hc (by omega)
    rcases hmc : minAddCost env (n + 1) s st.min_cost_cache with ⟨mc1, c2⟩
    rw [hmc] at hcor
    dsimp only at hcor
    obtain ⟨hiff, hc2⟩ := hcor
    cases mc1 with
    | none =>
      have hnr : ¬ReachAccept env s := fun h => by simpa using hiff.2 h
      refine ⟨?_, hc2⟩
      rw [countD_eq_zero_of_not_reach (n + 1) s st.path.length hnr]
      simp only [Nat.add_zero]
      omega
    | some minAdd =>
      have hre : ReachAccept env s := hiff.1 (by simp)
      dsimp only
      by_cases hpr : prunedBy (worstKept env ⟨st.path, st.results, c2⟩) (b + minAdd)
      · rw [if_pos hpr]
        have hK : env.max_results ≤ st.results.length := worstKept_of_pruned hpr
        refine ⟨?_, hc2⟩
        show min env.max_results
          (st.results.length + countD env (n + 1) s st.path.length) ≤
          st.results.length
        omega
      · rw [if_neg hpr]
        by_cases hend : s.boundary = env.end_boundary
        · rw [if_pos hend]
          by_cases hoff : s.reading_offset ≠ env.reading.length
          · rw [if_pos hoff]
            exact absurd ((reachAccept_end hend).1 hre) hoff
          · rw [if_neg hoff]
            by_cases hmt : st.path.length < env.min_tokens
            · rw [if_pos hmt]
              refine ⟨?_, hc2⟩
              rw [countD, if_pos hend, if_neg (by omega)]
              simp only [Nat.add_zero]
              omega
            · rw [if_neg hmt]
              refine ⟨?_, ?_⟩
              · have hlen := record_result_length env ⟨st.path, st.results, c2⟩
                  (b + env.conn s.prev_right_id 0)
                simp only at hlen
                rw [countD, if_pos hend,
                  if_pos ⟨not_not.1 hoff, Nat.le_of_not_lt hmt⟩]
                split at hlen <;> omega
              · rw [record_result_cache]
                exact hc2
        · rw [if_neg hend]
          obtain ⟨hc3, hsum⟩ := dfsCollect_sum_eq env hwf (n + 1) b n
            (st.path.length + 1) (transitionsOf env s) c2 hc2
            (fun t ht => by have := hwf s t ht; omega)
          obtain ⟨ha, hcach⟩ := dfsLoop_countA_of env n ih b
            (sortTrans (dfsCollect env (n + 1) b (transitionsOf env s) c2).1)
            ⟨st.path, st.results,
              (dfsCollect env (n + 1) b (transitionsOf env s) c2).2⟩ hc3
            (fun u hu => by
              have hm := mem_dfsCollect (mem_sortTrans hu)
              have h5 := hwf s (u.2.1, u.2.2.1, u.2.2.2) hm
              simp only at h5
              omega)
          refine ⟨?_, hcach⟩
          simp only at ha
          rw [sortTrans_sum] at ha
          rw [hsum] at ha
          rw [countD, if_neg hend]
          omega

instance : IsTotal ReadingCandidatePath (fun a b => a.total_cost ≤ b.total_cost) :=
  ⟨fun x y => le_total x.total_cost y.total_cost⟩

instance : IsTrans ReadingCandidatePath (fun a b => a.total_cost ≤ b.total_cost) :=
  ⟨fun _ _ _ h1 h2 => le_trans h1 h2⟩

/-- The searcher returns a list sorted by ascending total cost whose
length is the minimum of the capacity and the number of accepted
derivations. -/
theorem searcherRun_count (env : SearchEnv) (fuel : Nat)
    (hwf : ∀ (s : SearchState) (t : Int × NodeRef × SearchState),
      t ∈ transitionsOf env s →
      s.boundary < t.2.2.boundary ∧ t.2.2.boundary ≤ env.end_boundary)
    (hfuel : env.end_boundary + 1 ≤ fuel) :
    (searcherRun env fuel).length =
        min env.max_results (countD env fuel ⟨0, 0, 0⟩ 0) ∧
      List.Sorted (fun a b => a.total_cost ≤ b.total_cost)
        (searcherRun env fuel) := by
  constructor
  · show ((sortByCost (dfs env fuel ⟨0, 0, 0⟩ 0 ⟨[], [], []⟩).results).take
      env.max_results).length = _
    rw [List.length_take]
    have hsortlen : (sortByCost
        (dfs env fuel ⟨0, 0, 0⟩ 0 ⟨[], [], []⟩).results).length =
        (dfs env fuel ⟨0, 0, 0⟩ 0 ⟨[], [], []⟩).results.length :=
      (List.perm_insertionSort _ _).length_eq
    rw [hsortlen]
    have hB := dfs_countB env fuel ⟨0, 0, 0⟩ 0 ⟨[], [], []⟩
    have hA := (dfs_countA env hwf fuel ⟨0, 0, 0⟩ 0 ⟨[], [], []⟩
      (cacheOK_nil env) (by omega)).1
    have hK := (dfs_len env fuel ⟨0, 0, 0⟩ 0 ⟨[], [], []⟩).2
    simp only [List.length_nil, Nat.zero_add, Nat.max_eq_right (Nat.zero_le _)]
      at hB hA hK
    omega
  · show List.Sorted _ ((sortByCost
      (dfs env fuel ⟨0, 0, 0⟩ 0 ⟨[], [], []⟩).results).take env.max_results)
    have hs : List.Sorted (fun a b : ReadingCandidatePath =>
        a.total_cost ≤ b.total_cost) (sortByCost
          (dfs env fuel ⟨0, 0, 0⟩ 0 ⟨[], [], []⟩).results) :=
      List.sorted_insertionSort _ _
    exact List.Pairwise.sublist (List.take_sublist _ _) hs

/-- C3 (amended): when the searcher actually runs (nonzero boundary count,
nonempty normalized reading) with enough fuel over well-formed node
tables, the returned list is sorted by ascending `total_cost` and its
length equals the minimum of `K` and the number of accepted derivations —
node paths together with their chosen match-variant splits whose consumed
normalized reading equals the normalized target and whose token count is
at least `max(M, 1)`.  (The original claim counted distinct node paths;
the same path reached through two different variant splits is recorded
twice, see the counterexample.) -/
theorem c3_sorted_count_amended (nfkc : String → String)
    (lower : Char → List Char) (lattice : Lattice) (input : Nat → Nat → String)
    (lex : Nat → WordId → Except SudachiError WordInfo) (conn : Conn)
    (subset : Nat) (reading : String) (K M fuel : Nat)
    (hn : normalize_for_matching nfkc lower reading ≠ "")
    (hbc : lattice.boundary_count ≠ 0)
    (hfuel : lattice.boundary_count ≤ fuel) :
    ∀ (rr : List (List NodeRef) × List (List NodeMeta))
      (paths : List ReadingCandidatePath),
      buildAll nfkc lower lattice input lex (subset ||| READING_FORM ||| SURFACE)
        0 lattice.boundary_count (List.replicate lattice.boundary_count []) [] =
        .ok rr →
      EnvWFnodes (mkSearchEnv conn
        (strBytes (normalize_for_matching nfkc lower reading))
        (lattice.boundary_count - 1) K (max M 1) rr) →
      enumerate_reading_candidates nfkc lower lattice input lex conn subset
        reading K M fuel = .ok paths →
      List.Sorted (fun a b => a.total_cost ≤ b.total_cost) paths ∧
        paths.length = min K (countD (mkSearchEnv conn
          (strBytes (normalize_for_matching nfkc lower reading))
          (lattice.boundary_count - 1) K (max M 1) rr) fuel ⟨0, 0, 0⟩ 0) := by
  intro rr paths hbuild hwfn hok
  unfold enumerate_reading_candidates at hok
  by_cases hk : K = 0
  · rw [if_pos hk] at hok
    simp only [Except.ok.injEq] at hok
    subst hok
    refine ⟨List.sorted_nil, ?_⟩
    rw [hk]
    simp
  · rw [if_neg hk, if_neg hn, if_neg hbc, hbuild] at hok
    dsimp only at hok
    simp only [Except.ok.injEq] at hok
    subst hok
    have henv := searcherRun_count
      (mkSearchEnv conn (strBytes (normalize_for_matching nfkc lower reading))
        (lattice.boundary_count - 1) K (max M 1) rr) fuel
      (envWF_trans hwfn)
      (by show lattice.boundary_count - 1 + 1 ≤ fuel; omega)
    exact ⟨henv.2, henv.1⟩

/-- The lattice of the C3 refutation: one node `(0,1)` and one node
`(1,2)`, both dictionary words with zero costs. -/
def c3Lattice : Lattice :=
  analysisLattice Lattice.default 2
    [⟨0, 1, 0, 1, 0, ⟨1⟩, false⟩, ⟨1, 2, 0, 2, 0, ⟨2⟩, false⟩] (fun _ _ => 0)

/-- The lexicon of the C3 refutation: word 1 has reading "aa" and surface
"a"; word 2 has reading "a" and surface "aa" (so each token has two match
variants of different lengths). -/
def c3Lex : Nat → WordId → Except SudachiError WordInfo :=
  fun _ w => if w.raw == 1 then .ok ⟨"a", "aa", 0⟩ else .ok ⟨"aa", "a", 0⟩

/-- The single distinct token path of the C3 refutation, as returned. -/
def c3Path : ReadingCandidatePath :=
  ⟨0, [⟨⟨1⟩, "a", "aa", 0, 1⟩, ⟨⟨2⟩, "aa", "a", 1, 2⟩]⟩

/-- The precomputation result of the C3 refutation. -/
def c3BuildResult : List (List NodeRef) × List (List NodeMeta) :=
  ([[⟨1, 0⟩], [⟨2, 0⟩], []],
    [[], [⟨⟨0, 1, 0, 1, 0, ⟨1⟩, false⟩, ⟨"a", "aa", 0⟩, ["aa", "a"]⟩],
      [⟨⟨1, 2, 0, 2, 0, ⟨2⟩, false⟩, ⟨"aa", "a", 0⟩, ["a", "aa"]⟩]])

/-- All nodes of a lattice, across all end boundaries. -/
def nodesOfLattice (lattice : Lattice) : List Node :=
  (List.range lattice.boundary_count).flatMap (fun e => lattice.nodes_ending_at e)

/-- Modelled from the claim's wording, for the refutation: all node paths
through the lattice tiling `[0, N]`. -/
def allNodePaths (lattice : Lattice) : Nat → Nat → List (List Node)
  | 0, _ => []
  | Nat.succ fuel, b =>
    if b = lattice.boundary_count - 1 then [[]]
    else ((nodesOfLattice lattice).filter (fun nd => nd.begin_ == b)).flatMap
      (fun nd => (allNodePaths lattice fuel nd.end_).map (fun p => nd :: p))

/-- Modelled from the claim's wording, for the refutation: the
concatenated normalized readings of a node path (reading form with surface
fallback, as in the output records). -/
def pathReading (nfkc : String → String) (lower : Char → List Char)
    (input : Nat → Nat → String)
    (lex : Nat → WordId → Except SudachiError WordInfo) (subset : Nat)
    (p : List Node) : String :=
  String.join (p.map (fun nd =>
    normalize_for_matching nfkc lower
      (match make_word_info input lex subset nd with
        | .ok wi => if wi.reading_form = "" then wi.surface else wi.reading_form
        | .error _ => "")))

/-- Keep-first list deduplication (generic), threading the seen set. -/
def distinctAux [DecidableEq α] (seen : List α) : List α → List α
  | [] => []
  | x :: xs =>
    if x ∈ seen then distinctAux seen xs else x :: distinctAux (x :: seen) xs

/-- Keep-first list deduplication (generic). -/
def distinctList [DecidableEq α] (l : List α) : List α := distinctAux [] l

/-- Modelled from the claim's wording, for the refutation: the number of
distinct node paths whose concatenated normalized readings equal the
normalized target and whose token count is at least `max(M, 1)`. -/
def claimDistinctPathCount (nfkc : String → String) (lower : Char → List Char)
    (lattice : Lattice) (input : Nat → Nat → String)
    (lex : Nat → WordId → Except SudachiError WordInfo) (subset : Nat)
    (reading : String) (M fuel : Nat) : Nat :=
  (distinctList ((allNodePaths lattice fuel 0).filter (fun p =>
    pathReading nfkc lower input lex subset p ==
        normalize_for_matching nfkc lower reading
      && decide (max M 1 ≤ p.length)))).length

/-- C3 counterexample: on a two-node lattice whose tokens have match
variants of different lengths, the same distinct token path is recorded
once per variant split — the result has 2 entries while only 1 distinct
path matches the normalized reading, so the returned length is not
`min(K, number of distinct matching paths)`. -/
theorem c3_counterexample :
    enumerate_reading_candidates id (fun c => [c]) c3Lattice (fun _ _ => "")
        c3Lex (fun _ _ => 0) 0 "aaa" 16 0 5 = .ok [c3Path, c3Path] ∧
      claimDistinctPathCount id (fun c => [c]) c3Lattice (fun _ _ => "") c3Lex
        (0 ||| READING_FORM ||| SURFACE) "aaa" 0 5 = 1 ∧
      ([c3Path, c3Path] : List ReadingCandidatePath).length ≠
        min 16 (claimDistinctPathCount id (fun c => [c]) c3Lattice
          (fun _ _ => "") c3Lex (0 ||| READING_FORM ||| SURFACE) "aaa" 0 5) :=
  ⟨rfl, rfl, by decide⟩

/-- C3 witness: on the refutation scenario the amended statement holds —
the output is sorted and its length is exactly the number of accepted
derivations (2), below the capacity 16. -/
theorem c3_witness :
    List.Sorted (fun a b => a.total_cost ≤ b.total_cost)
        ([c3Path, c3Path] : List ReadingCandidatePath) ∧
      ([c3Path, c3Path] : List ReadingCandidatePath).length =
        min 16 (countD (mkSearchEnv (fun _ _ => 0)
          (strBytes (normalize_for_matching id (fun c => [c]) "aaa"))
          (c3Lattice.boundary_count - 1) 16 (max 0 1) c3BuildResult) 5
          ⟨0, 0, 0⟩ 0) :=
  c3_sorted_count_amended id (fun c => [c]) c3Lattice (fun _ _ => "") c3Lex
    (fun _ _ => 0) 0 "aaa" 16 0 5 (by decide) (by decide) (by decide)
    c3BuildResult [c3Path, c3Path] rfl (by unfold EnvWFnodes; decide) rfl

end Sudachi
